import Mathlib

/-!
Verification of the Wikidata entity-metadata normalizer and the
relationship-graph walker of the wiki_utils repository
(src/wiki_utils/wikidata/__init__.py), over a shallow embedding of the
Python code.  JSON-like Python values are modelled by the inductive type
`J`; Python exceptions are modelled by `Except PyExc`; the network fetch
collaborator `get_entity_metadata_by_qid` is modelled as a finite lookup
table from QID strings to raw entity records.
-/

namespace WikiUtils

/-- A JSON-like Python value: None, bool, number, string, list, dict.
Dicts are association lists in insertion order. -/
inductive J where
  | null : J
  | bool (b : Bool) : J
  | num (n : Int) : J
  | str (s : String) : J
  | arr (xs : List J) : J
  | obj (fs : List (String × J)) : J

/-- The Python exception kinds that the embedded code can raise. -/
inductive PyExc where
  | attributeError : PyExc
  | typeError : PyExc
  | keyError : PyExc
deriving DecidableEq, Repr

/-- Computations that may raise a Python exception. -/
abbrev PyM (α : Type) : Type := Except PyExc α

/-- Models Python `d.get(key, dflt)`: attribute error when `d` is not a
dict, otherwise the stored value or the default. -/
def pyDictGet (d : J) (key : String) (dflt : J) : PyM J :=
  match d with
  | .obj fs => .ok ((fs.lookup key).getD dflt)
  | _ => .error .attributeError

/-- Models Python subscription `v[key]` with a string key: key error when
the key is missing from a dict, type error when `v` is not a dict. -/
def pySubscript (v : J) (key : String) : PyM J :=
  match v with
  | .obj fs =>
    match fs.lookup key with
    | some x => .ok x
    | none => .error .keyError
  | _ => .error .typeError

/-- Models Python `d.items()`: attribute error when `d` is not a dict. -/
def pyItems : J → PyM (List (String × J))
  | .obj fs => .ok fs
  | _ => .error .attributeError

/-- Models Python iteration `for x in v`: lists yield elements, dicts
yield their keys, strings yield one-character strings, anything else is a
type error. -/
def pyIter : J → PyM (List J)
  | .arr xs => .ok xs
  | .obj fs => .ok (fs.map (fun p => .str p.1))
  | .str s => .ok (s.data.map (fun c => .str (String.mk [c])))
  | _ => .error .typeError

/-- Models Python truthiness of a value. -/
def pyTruthy : J → Bool
  | .null => false
  | .bool b => b
  | .num n => decide (n ≠ 0)
  | .str s => !s.data.isEmpty
  | .arr xs => !xs.isEmpty
  | .obj fs => !fs.isEmpty

/-- Models Python `s.startswith(pre)` on strings, via the character
lists of the two strings. -/
def pyStartsWith (s pre : String) : Bool :=
  pre.data.isPrefixOf s.data

/-- The static property table `property_id_to_name` from the constructor
of `WikidataClient`, in source order. -/
def property_id_to_name : List (String × String) :=
  [("P1476", "title"),
   ("P50", "author"),
   ("P655", "translator"),
   ("P373", "commons_category_link"),
   ("P31", "instance_of"),
   ("P279", "subclass_of"),
   ("P747", "has_edition"),
   ("P4969", "derivative_work"),
   ("P136", "genre"),
   ("P921", "main_subject"),
   ("P1343", "described_by_source"),
   ("P2888", "exact_match"),
   ("P407", "language_of_work"),
   ("P18", "image"),
   ("P10", "video"),
   ("P2671", "google_knowledge_graph_id"),
   ("P2477", "sbn_author_id"),
   ("P989", "spoken_text_audio")]

/-- The body of the dict comprehension in `_parse_labels` and
`_parse_descriptions`: for each language entry, subscript the entry with
the key "value"; the first failure raises. -/
def parseLangItems : List (String × J) → PyM (List (String × J))
  | [] => .ok []
  | (lang, lab) :: rest => do
    let v ← pySubscript lab "value"
    let tl ← parseLangItems rest
    .ok ((lang, v) :: tl)

/-- Models `WikidataClient._parse_labels`. -/
def _parse_labels (metadata : J) : PyM (List (String × J)) := do
  let l ← pyDictGet metadata "labels" (.obj [])
  let items ← pyItems l
  parseLangItems items

/-- Models `WikidataClient._parse_descriptions`. -/
def _parse_descriptions (metadata : J) : PyM (List (String × J)) := do
  let d ← pyDictGet metadata "descriptions" (.obj [])
  let items ← pyItems d
  parseLangItems items

/-- The inner list comprehension of `_parse_aliases`: for each alias in a
per-language alias list, subscript with "value". -/
def parseAliasList : List J → PyM (List J)
  | [] => .ok []
  | al :: rest => do
    let v ← pySubscript al "value"
    let tl ← parseAliasList rest
    .ok (v :: tl)

/-- The outer comprehension of `_parse_aliases`: iterate each language
entry and collect its alias values. -/
def parseAliasItems : List (String × J) → PyM (List (String × J))
  | [] => .ok []
  | (lang, als) :: rest => do
    let elems ← pyIter als
    let vs ← parseAliasList elems
    let tl ← parseAliasItems rest
    .ok ((lang, .arr vs) :: tl)

/-- Models `WikidataClient._parse_aliases`. -/
def _parse_aliases (metadata : J) : PyM (List (String × J)) := do
  let a ← pyDictGet metadata "aliases" (.obj [])
  let items ← pyItems a
  parseAliasItems items

/-- The loop body of `_extract_property_values` for one statement: read
mainsnak, then datavalue, then value, and flatten a dict value carrying
an "id" entry to that entry. -/
def extractOne (property_metadata : J) : PyM J := do
  let mainsnak ← pyDictGet property_metadata "mainsnak" (.obj [])
  let datavalue ← pyDictGet mainsnak "datavalue" (.obj [])
  let value ← pyDictGet datavalue "value" .null
  match value with
  | .obj fs =>
    match fs.lookup "id" with
    | some i => .ok i
    | none => .ok value
  | _ => .ok value

/-- The statement loop of `_extract_property_values`, appending one
extracted value per statement in source order. -/
def extractStmts : List J → PyM (List J)
  | [] => .ok []
  | s :: rest => do
    let v ← extractOne s
    let tl ← extractStmts rest
    .ok (v :: tl)

/-- Models `WikidataClient._extract_property_values`. -/
def _extract_property_values (properties_metadata : J) (property_id : String) :
    PyM (List J) := do
  let stmtsJ ← pyDictGet properties_metadata property_id (.arr [])
  let stmts ← pyIter stmtsJ
  extractStmts stmts

/-- The property loop of `parse_entity_metadata`: one entry per pair of
the static table, in table order. -/
def extractProps (properties_metadata : J) :
    List (String × String) → PyM (List (String × J))
  | [] => .ok []
  | (pid, pname) :: rest => do
    let vs ← _extract_property_values properties_metadata pid
    let tl ← extractProps properties_metadata rest
    .ok ((pname, .arr vs) :: tl)

/-- The try-block of `parse_entity_metadata`: labels, descriptions,
aliases, then the result dict with qid and one value list per table
property. -/
def tryParse (metadata : J) : PyM J := do
  let labels ← _parse_labels metadata
  let descriptions ← _parse_descriptions metadata
  let aliases ← _parse_aliases metadata
  let qid ← pyDictGet metadata "id" (.str "")
  let properties_metadata ← pyDictGet metadata "claims" (.obj [])
  let props ← extractProps properties_metadata property_id_to_name
  .ok (.obj ([("qid", qid),
              ("labels", .obj labels),
              ("descriptions", .obj descriptions),
              ("aliases", .obj aliases)] ++ props))

/-- The degraded record built by the exception handler of
`parse_entity_metadata` for a dict input. -/
def degradedRecord (fs : List (String × J)) : J :=
  .obj [("qid", (fs.lookup "id").getD (.str "")),
        ("labels", .obj []),
        ("descriptions", .obj []),
        ("aliases", .obj [])]

/-- Models `WikidataClient.parse_entity_metadata`: run the try-block; on
an exception, the handler formats a log message by calling
`metadata.get` — which itself raises when `metadata` is not a dict — and
then returns the degraded record. -/
def parse_entity_metadata (metadata : J) : PyM J :=
  match tryParse metadata with
  | .ok r => .ok r
  | .error _ =>
    match metadata with
    | .obj fs => .ok (degradedRecord fs)
    | _ => .error .attributeError

/-- A directed relationship edge as built by `walk`: the Python dict
literal with exactly the keys "from", "to" and "relationship". -/
structure GraphEdge where
  «from» : String
  «to» : String
  relationship : String
deriving DecidableEq, Repr

/-- The fetch environment: the finite table of raw entity records the
external knowledge base would return, keyed by QID.  Models the network
behind `get_entity_metadata_by_qid`; a key absent from the table is a
fetch failure or a missing entity, both of which that method turns into
`None`. -/
abbrev WDB := List (String × J)

/-- Models `get_entity_metadata_by_qid` against a `WDB`. -/
def fetchEntity (db : WDB) (qid : String) : Option J := db.lookup qid

/-- The value test of the walk loops:
`edition_qid and isinstance(edition_qid, str) and edition_qid.startswith("Q")`. -/
def isTraversable (v : J) : Bool :=
  match v with
  | .str s => pyTruthy (.str s) && pyStartsWith s "Q"
  | _ => false

/-- The state threaded through the recursion of `walk`: the visited set,
the accumulated edge list, and — as verification instrumentation absent
from the source — the list of arguments of the calls made to
`get_entity_metadata_by_qid`, each paired with whether the fetch
succeeded. -/
abbrev WSt := List String × List GraphEdge × List (String × Bool)

/-- One relationship loop of `walk` (the source has two, one for
"has_edition" and one for "derivative_work"): for each value, if it
passes `isTraversable`, append the edge and recurse via `next` before
continuing with the rest of the list; otherwise skip the value.  `none`
models recursion that does not come back (exhausted fuel in `walkF`). -/
def walkChildren
    (next : String → List String → List GraphEdge → List (String × Bool) →
      Option (PyM WSt)) (rel qid : String) :
    List J → List String → List GraphEdge → List (String × Bool) →
      Option (PyM WSt)
  | [], visited, edges, tr => some (.ok (visited, edges, tr))
  | val :: rest, visited, edges, tr =>
    match val with
    | .str s =>
      if pyTruthy (.str s) && pyStartsWith s "Q" then
        match next s visited (edges ++ [⟨qid, s, rel⟩]) tr with
        | none => none
        | some (.error ex) => some (.error ex)
        | some (.ok (v2, e2, tr2)) => walkChildren next rel qid rest v2 e2 tr2
      else walkChildren next rel qid rest visited edges tr
    | _ => walkChildren next rel qid rest visited edges tr

/-- `parsed_metadata.get(pname, [])` followed by iterating the result. -/
def pmVals (pm : J) (pname : String) : PyM (List J) := do
  let x ← pyDictGet pm pname (.arr [])
  pyIter x

/-- The sequence of relationship loops of `walk`, driven by the list of
relationship property names; the source inlines this sequence for the
literal list `["has_edition", "derivative_work"]`. -/
def walkProps
    (next : String → List String → List GraphEdge → List (String × Bool) →
      Option (PyM WSt)) (qid : String) (pm : J) :
    List String → List String → List GraphEdge → List (String × Bool) →
      Option (PyM WSt)
  | [], visited, edges, tr => some (.ok (visited, edges, tr))
  | pname :: rest, visited, edges, tr =>
    match pmVals pm pname with
    | .error ex => some (.error ex)
    | .ok vals =>
      match walkChildren next pname qid vals visited edges tr with
      | none => none
      | some (.error ex) => some (.error ex)
      | some (.ok (v2, e2, tr2)) => walkProps next qid pm rest v2 e2 tr2

/-- Models `WikidataClient.walk` with explicit state passing in place of
the mutated `_visited` set and `_edges` list.  The fuel argument only
bounds the recursion depth so the function is total; `walk` below
supplies fuel that provably never runs out.  Python exceptions raised by
`parse_entity_metadata` propagate out, as in the source, which has no
handler in `walk`. -/
def walkF (db : WDB) (props : List String) :
    Nat → String → List String → List GraphEdge → List (String × Bool) →
      Option (PyM WSt)
  | 0, _, _, _, _ => none
  | n + 1, qid, visited, edges, tr =>
    if qid ∈ visited then some (.ok (visited, edges, tr))
    else
      match fetchEntity db qid with
      | none => some (.ok (qid :: visited, edges, tr ++ [(qid, false)]))
      | some ent =>
        if pyTruthy ent then
          match parse_entity_metadata ent with
          | .error ex => some (.error ex)
          | .ok pm =>
            walkProps (fun q v e t => walkF db props n q v e t) qid pm props
              (qid :: visited) edges (tr ++ [(qid, true)])
        else some (.ok (qid :: visited, edges, tr ++ [(qid, true)]))

/-- The two relationship properties processed by `walk`, in source
order. -/
def walkRels : List String := ["has_edition", "derivative_work"]

/-- The top-level entry point `walk(qid)` with its default arguments:
empty visited set and empty edge list. -/
def walk (db : WDB) (qid : String) : Option (PyM WSt) :=
  walkF db walkRels (db.length + 1) qid [] [] []

/-- A variant of `walk` that processes the two relationship loops in the
opposite order; used only to state that the loop order affects the
emission order of edges but not the edge set. -/
def walkAlt (db : WDB) (qid : String) : Option (PyM WSt) :=
  walkF db ["derivative_work", "has_edition"] (db.length + 1) qid [] [] []

/-- A claims statement whose mainsnak value is a reference to the entity
`q` (building block for concrete test records). -/
def stmtRef (q : String) : J :=
  .obj [("mainsnak", .obj [("datavalue", .obj [("value", .obj [("id", .str q)])])])]

/-- A claims statement whose mainsnak value is the literal `v`. -/
def stmtVal (v : J) : J :=
  .obj [("mainsnak", .obj [("datavalue", .obj [("value", v)])])]

/-- A raw entity record with the given QID, edition statements (P747)
and derivative-work statements (P4969). -/
def entWith (qid : String) (editions derivs : List J) : J :=
  .obj [("id", .str qid),
        ("claims", .obj [("P747", .arr editions), ("P4969", .arr derivs)])]

/-- A two-entity cycle: Q1 has edition Q2 and Q2 has edition Q1. -/
def cycleDb : WDB :=
  [("Q1", entWith "Q1" [stmtRef "Q2"] []),
   ("Q2", entWith "Q2" [stmtRef "Q1"] [])]

/-- A database exercising depth-first emission order: Q1 has editions Q2
and Q3 and derivative work Q5; Q2 has edition Q4. -/
def demoDb : WDB :=
  [("Q1", entWith "Q1" [stmtRef "Q2", stmtRef "Q3"] [stmtRef "Q5"]),
   ("Q2", entWith "Q2" [stmtRef "Q4"] []),
   ("Q3", entWith "Q3" [] []),
   ("Q4", entWith "Q4" [] []),
   ("Q5", entWith "Q5" [] [])]

/-- A database where the fetch of Q2 fails (Q2 has no record): Q1 has
editions Q2 and Q3, and Q3 has edition Q4. -/
def failDb : WDB :=
  [("Q1", entWith "Q1" [stmtRef "Q2", stmtRef "Q3"] []),
   ("Q3", entWith "Q3" [stmtRef "Q4"] []),
   ("Q4", entWith "Q4" [] [])]

/-- A database whose only edition value is the string "Qabc", which
starts with "Q" but is not a letter prefix followed by digits. -/
def qabcDb : WDB := [("Q1", entWith "Q1" [stmtVal (.str "Qabc")] [])]

/-- A per-language label or description entry (or a single alias entry)
the code can read: a dict carrying a "value" key. -/
def wfLangEntry (v : J) : Bool :=
  match v with
  | .obj entry => (entry.lookup "value").isSome
  | _ => false

/-- A labels or descriptions map the code can traverse: a dict whose
entries all satisfy `wfLangEntry`. -/
def wfLangMap (v : J) : Bool :=
  match v with
  | .obj ls => ls.all (fun p => wfLangEntry p.2)
  | _ => false

/-- A per-language alias list the code can traverse: a list of entries
each carrying a "value" key. -/
def wfAliasEntry (v : J) : Bool :=
  match v with
  | .arr als => als.all wfLangEntry
  | _ => false

/-- An aliases map the code can traverse. -/
def wfAliasMap (v : J) : Bool :=
  match v with
  | .obj ls => ls.all (fun p => wfAliasEntry p.2)
  | _ => false

/-- A claims statement the code can read: a dict whose "mainsnak" field,
when present, is a dict, whose "datavalue" field, when present, is a
dict. -/
def wfStatement (s : J) : Bool :=
  match s with
  | .obj fs =>
    match fs.lookup "mainsnak" with
    | none => true
    | some (.obj ms) =>
      match ms.lookup "datavalue" with
      | none => true
      | some (.obj _) => true
      | some _ => false
    | some _ => false
  | _ => false

/-- A statement list under one property identifier. -/
def wfStatements (v : J) : Bool :=
  match v with
  | .arr ss => ss.all wfStatement
  | _ => false

/-- The statements stored under `pid` in a claims dict are readable (a
missing property identifier is always fine). -/
def wfStmtsAt (cs : List (String × J)) (pid : String) : Bool :=
  match cs.lookup pid with
  | none => true
  | some s => wfStatements s

/-- A claims structure the code can traverse for every property of the
static table. -/
def wfClaims (v : J) : Bool :=
  match v with
  | .obj cs => property_id_to_name.all (fun p => wfStmtsAt cs p.1)
  | _ => false

/-- An optional top-level field satisfies `wf` when present. -/
def wfField (fs : List (String × J)) (key : String) (wf : J → Bool) : Bool :=
  match fs.lookup key with
  | none => true
  | some v => wf v

/-- A RawEntityRecord in the sense of the spec data model: a dict whose
labels, descriptions, aliases and claims fields, when present, have the
shapes the knowledge base returns (any of them may be omitted). -/
def wfRaw (m : J) : Bool :=
  match m with
  | .obj fs =>
    wfField fs "labels" wfLangMap &&
    wfField fs "descriptions" wfLangMap &&
    wfField fs "aliases" wfAliasMap &&
    wfField fs "claims" wfClaims
  | _ => false

/-- The main value of a statement as the extraction loop reads it:
mainsnak, then datavalue (each defaulting to an empty dict), then the
value field (defaulting to None). -/
def mainValue (s : J) : J :=
  match s with
  | .obj fs =>
    match (fs.lookup "mainsnak").getD (.obj []) with
    | .obj ms =>
      match (ms.lookup "datavalue").getD (.obj []) with
      | .obj dv => (dv.lookup "value").getD .null
      | _ => .null
    | _ => .null
  | _ => .null

/-- The value appended for one statement: a dict value carrying an "id"
entry is flattened to that entry, anything else is kept unchanged. -/
def extractValuePure (s : J) : J :=
  match mainValue s with
  | .obj fs => (fs.lookup "id").getD (.obj fs)
  | v => v

/-- The claims structure of a record, defaulting to an empty dict. -/
def claimsOf (m : J) : J :=
  match m with
  | .obj fs => (fs.lookup "claims").getD (.obj [])
  | _ => .obj []

/-- The statements entry stored for `pid` in the claims of `m`; `none`
when the property identifier is absent from the claims. -/
def stmtsOf (m : J) (pid : String) : Option J :=
  match claimsOf m with
  | .obj cs => cs.lookup pid
  | _ => none

/-- The statement list stored for `pid` in a claims value. -/
def stmtListOf (c : J) (pid : String) : List J :=
  match c with
  | .obj cs =>
    match cs.lookup pid with
    | some (.arr ss) => ss
    | _ => []
  | _ => []

/-- Field list of a record whose labels map holds one well-formed
language entry ("en") and one corrupt one ("bo", a bare string instead
of a dict with a "value" field). -/
def corruptLabelsFields : List (String × J) :=
  [("id", .str "Q1"),
   ("labels", .obj [("en", .obj [("value", .str "ok")]),
                    ("bo", .str "bad")])]

/-- The record over `corruptLabelsFields`. -/
def corruptLabelsRec : J := .obj corruptLabelsFields

/-- Follows the spec wording, not the source: the glossary's QID-shaped
identifier, a string beginning with a letter prefix followed by digits
(one or more letters, then one or more digits, nothing else).  Used only
to compare the spec's validity notion with the check the code performs. -/
def specQidShaped (s : String) : Bool :=
  let letters := s.data.takeWhile Char.isAlpha
  let rest := s.data.dropWhile Char.isAlpha
  !letters.isEmpty && !rest.isEmpty && rest.all Char.isDigit

/-- The number of database keys not yet visited; the walk recursion can
only continue past its guard this many more times. -/
def unvisitedCount (db : WDB) (v : List String) : Nat :=
  ((db.map Prod.fst).filter (fun k => decide (k ∉ v))).length

/-- The value list the walk iterates for relationship property `pname`
of entity `y`: empty when the fetch fails, the fetched record is falsy,
parsing raises, or the parsed record yields no iterable list. -/
def nodeVals (db : WDB) (pname : String) (y : String) : List J :=
  match fetchEntity db y with
  | none => []
  | some ent =>
    if pyTruthy ent then
      match parse_entity_metadata ent with
      | .error _ => []
      | .ok pm =>
        match pmVals pm pname with
        | .ok vals => vals
        | .error _ => []
    else []

/-- The identifiers among a value list that pass the walk's
traversability test. -/
def travIds : List J → List String
  | [] => []
  | val :: rest =>
    match val with
    | .str s =>
      if pyTruthy (.str s) && pyStartsWith s "Q" then s :: travIds rest
      else travIds rest
    | _ => travIds rest

/-- All traversable successor identifiers of entity `y` over the given
relationship properties. -/
def succIds (db : WDB) (props : List String) (y : String) : List String :=
  (props.map (fun p => travIds (nodeVals db p y))).flatten

/-- All edges the walk emits while processing entity `y`: one edge per
traversable value of each relationship property. -/
def nodeEdges (db : WDB) (props : List String) (y : String) : List GraphEdge :=
  (props.map (fun p =>
    (travIds (nodeVals db p y)).map (fun s => (⟨y, s, p⟩ : GraphEdge)))).flatten

/-- How one walk state may evolve into another: the visited set only
grows; the fetch trace is extended by distinct, previously unvisited and
now visited identifiers; the edge list is extended by edges whose
relationship is one of the processed properties, whose source is a
visited and successfully fetched entity, and whose target is a non-empty
string starting with "Q". -/
def StepOk (rels : List String) (st st2 : WSt) : Prop :=
  st.1 ⊆ st2.1 ∧
  (∃ dtr, st2.2.2 = st.2.2 ++ dtr ∧ (dtr.map Prod.fst).Nodup ∧
    ∀ p ∈ dtr, p.1 ∉ st.1 ∧ p.1 ∈ st2.1) ∧
  (∃ de, st2.2.1 = st.2.1 ++ de ∧
    ∀ ed ∈ de, ed.relationship ∈ rels ∧ ed.«from» ∈ st2.1 ∧
      (ed.«from», true) ∈ st2.2.2 ∧ ed.«to» ≠ "" ∧
      pyStartsWith ed.«to» "Q" = true)

/-- A recursion continuation that only performs `StepOk` transitions. -/
def NextOk (rels : List String)
    (next : String → List String → List GraphEdge → List (String × Bool) →
      Option (PyM WSt)) : Prop :=
  ∀ q v e tr st2, next q v e tr = some (.ok st2) → StepOk rels (v, e, tr) st2

/-- `x` is reachable from `q` along traversable successor links while
avoiding every identifier in `avoid`. -/
inductive ReachAvoid (db : WDB) (props : List String) (avoid : List String) :
    String → String → Prop where
  | base (q : String) (h : q ∉ avoid) : ReachAvoid db props avoid q q
  | step (q y x : String) (hy : ReachAvoid db props avoid q y)
      (hx : x ∈ succIds db props y) (hnx : x ∉ avoid) :
      ReachAvoid db props avoid q x

@[simp] theorem pym_bind_ok {α β : Type} (a : α) (f : α → PyM β) :
    (Bind.bind (Except.ok a) f : PyM β) = f a := rfl

@[simp] theorem pym_bind_err {α β : Type} (ex : PyExc) (f : α → PyM β) :
    (Bind.bind (Except.error ex) f : PyM β) = Except.error ex := rfl

theorem pySubscript_value_ok (lab : J) (h : wfLangEntry lab = true) :
    ∃ v, pySubscript lab "value" = .ok v := by
  cases lab
  case obj entry =>
    have hs : (entry.lookup "value").isSome = true := h
    obtain ⟨v, hv⟩ := Option.isSome_iff_exists.mp hs
    exact ⟨v, by simp [pySubscript, hv]⟩
  all_goals simp [wfLangEntry] at h

theorem parseLangItems_ok (items : List (String × J))
    (h : ∀ p ∈ items, wfLangEntry p.2 = true) :
    ∃ r, parseLangItems items = .ok r := by
  induction items with
  | nil => exact ⟨[], rfl⟩
  | cons hd tl ih =>
    obtain ⟨lang, lab⟩ := hd
    obtain ⟨v, hv⟩ := pySubscript_value_ok lab (h (lang, lab) (List.mem_cons_self _ _))
    obtain ⟨r, hr⟩ := ih (fun p hp => h p (List.mem_cons_of_mem _ hp))
    exact ⟨(lang, v) :: r, by simp [parseLangItems, hv, hr]⟩

theorem langMap_parse_ok (fs : List (String × J)) (key : String)
    (go : J → PyM (List (String × J)))
    (hgo : ∀ d, go d = (do
      let l ← pyDictGet d key (.obj [])
      let items ← pyItems l
      parseLangItems items))
    (h : wfField fs key wfLangMap = true) :
    ∃ r, go (.obj fs) = .ok r := by
  rw [hgo]
  cases hl : fs.lookup key with
  | none =>
    exact ⟨[], by simp [pyDictGet, hl, pyItems, parseLangItems]⟩
  | some v =>
    rw [wfField, hl] at h
    cases v <;> simp [wfLangMap] at h
    case obj ls =>
      obtain ⟨r, hr⟩ := parseLangItems_ok ls (fun p hp => h p.1 p.2 hp)
      exact ⟨r, by simp [pyDictGet, hl, pyItems, hr]⟩

theorem parse_labels_ok (fs : List (String × J))
    (h : wfField fs "labels" wfLangMap = true) :
    ∃ r, _parse_labels (.obj fs) = .ok r :=
  langMap_parse_ok fs "labels" _parse_labels (fun _ => rfl) h

theorem parse_descriptions_ok (fs : List (String × J))
    (h : wfField fs "descriptions" wfLangMap = true) :
    ∃ r, _parse_descriptions (.obj fs) = .ok r :=
  langMap_parse_ok fs "descriptions" _parse_descriptions (fun _ => rfl) h

theorem parseAliasList_ok (als : List J) (h : ∀ a ∈ als, wfLangEntry a = true) :
    ∃ r, parseAliasList als = .ok r := by
  induction als with
  | nil => exact ⟨[], rfl⟩
  | cons hd tl ih =>
    obtain ⟨v, hv⟩ := pySubscript_value_ok hd (h hd (List.mem_cons_self _ _))
    obtain ⟨r, hr⟩ := ih (fun a ha => h a (List.mem_cons_of_mem _ ha))
    exact ⟨v :: r, by simp [parseAliasList, hv, hr]⟩

theorem parseAliasItems_ok (items : List (String × J))
    (h : ∀ p ∈ items, wfAliasEntry p.2 = true) :
    ∃ r, parseAliasItems items = .ok r := by
  induction items with
  | nil => exact ⟨[], rfl⟩
  | cons hd tl ih =>
    obtain ⟨lang, als⟩ := hd
    have h1 : wfAliasEntry als = true := h (lang, als) (List.mem_cons_self _ _)
    cases als <;> simp [wfAliasEntry] at h1
    case arr l =>
      obtain ⟨vs, hvs⟩ := parseAliasList_ok l h1
      obtain ⟨r, hr⟩ := ih (fun p hp => h p (List.mem_cons_of_mem _ hp))
      exact ⟨(lang, .arr vs) :: r, by simp [parseAliasItems, pyIter, hvs, hr]⟩

theorem parse_aliases_ok (fs : List (String × J))
    (h : wfField fs "aliases" wfAliasMap = true) :
    ∃ r, _parse_aliases (.obj fs) = .ok r := by
  cases hl : fs.lookup "aliases" with
  | none =>
    exact ⟨[], by simp [_parse_aliases, pyDictGet, hl, pyItems, parseAliasItems]⟩
  | some v =>
    rw [wfField, hl] at h
    cases v <;> simp [wfAliasMap] at h
    case obj ls =>
      obtain ⟨r, hr⟩ := parseAliasItems_ok ls (fun p hp => h p.1 p.2 hp)
      exact ⟨r, by simp [_parse_aliases, pyDictGet, hl, pyItems, hr]⟩

theorem extractOne_ok (s : J) (h : wfStatement s = true) :
    extractOne s = .ok (extractValuePure s) := by
  cases s <;> simp [wfStatement] at h
  case obj fs =>
    cases hm : fs.lookup "mainsnak" with
    | none =>
      simp [extractOne, pyDictGet, hm, extractValuePure, mainValue]
    | some msv =>
      rw [hm] at h
      cases msv <;> simp at h
      case obj ms =>
        cases hd : ms.lookup "datavalue" with
        | none =>
          simp [extractOne, pyDictGet, hm, hd, extractValuePure, mainValue]
        | some dvv =>
          rw [hd] at h
          cases dvv <;> simp at h
          case obj dv =>
            cases hv : dv.lookup "value" with
            | none =>
              simp [extractOne, pyDictGet, hm, hd, hv, extractValuePure, mainValue]
            | some value =>
              cases value <;>
                simp [extractOne, pyDictGet, hm, hd, hv, extractValuePure, mainValue]
              case obj vfs =>
                cases hi : vfs.lookup "id" <;> simp [hi]

theorem extractStmts_ok (ss : List J) (h : ∀ s ∈ ss, wfStatement s = true) :
    extractStmts ss = .ok (ss.map extractValuePure) := by
  induction ss with
  | nil => rfl
  | cons hd tl ih =>
    have h1 := extractOne_ok hd (h hd (List.mem_cons_self _ _))
    have h2 := ih (fun s hs => h s (List.mem_cons_of_mem _ hs))
    simp [extractStmts, h1, h2]

theorem extract_property_values_ok (cs : List (String × J)) (pid : String)
    (h : wfStmtsAt cs pid = true) :
    _extract_property_values (.obj cs) pid =
      .ok ((stmtListOf (.obj cs) pid).map extractValuePure) := by
  cases hl : cs.lookup pid with
  | none =>
    simp [_extract_property_values, pyDictGet, hl, pyIter, extractStmts, stmtListOf]
  | some s =>
    rw [wfStmtsAt, hl] at h
    cases s <;> simp [wfStatements] at h
    case arr ss =>
      have h2 := extractStmts_ok ss h
      simp [_extract_property_values, pyDictGet, hl, pyIter, h2, stmtListOf]

theorem extractProps_ok (cs : List (String × J)) (ps : List (String × String))
    (h : ∀ p ∈ ps, wfStmtsAt cs p.1 = true) :
    extractProps (.obj cs) ps =
      .ok (ps.map (fun p =>
        (p.2, J.arr ((stmtListOf (.obj cs) p.1).map extractValuePure)))) := by
  induction ps with
  | nil => rfl
  | cons hd tl ih =>
    obtain ⟨pid, pname⟩ := hd
    have h1 := extract_property_values_ok cs pid (h (pid, pname) (List.mem_cons_self _ _))
    have h2 := ih (fun p hp => h p (List.mem_cons_of_mem _ hp))
    simp [extractProps, h1, h2]

theorem claimsOf_obj (fs : List (String × J)) (h : wfField fs "claims" wfClaims = true) :
    ∃ cs, claimsOf (.obj fs) = .obj cs ∧ ∀ p ∈ property_id_to_name, wfStmtsAt cs p.1 = true := by
  cases hl : fs.lookup "claims" with
  | none =>
    refine ⟨[], by simp [claimsOf, hl], ?_⟩
    intro p _
    rfl
  | some c =>
    rw [wfField, hl] at h
    cases c <;> simp [wfClaims] at h
    case obj cs =>
      exact ⟨cs, by simp [claimsOf, hl], fun p hp => h p.1 p.2 hp⟩

theorem tryParse_shape (fs : List (String × J)) (h : wfRaw (.obj fs) = true) :
    ∃ a b c d, tryParse (.obj fs) =
      .ok (.obj ([("qid", a), ("labels", J.obj b), ("descriptions", J.obj c),
                  ("aliases", J.obj d)] ++
        property_id_to_name.map (fun p =>
          (p.2, J.arr ((stmtListOf (claimsOf (.obj fs)) p.1).map extractValuePure))))) := by
  rw [wfRaw] at h
  simp only [Bool.and_eq_true] at h
  obtain ⟨⟨⟨hlab, hdesc⟩, hali⟩, hcl⟩ := h
  obtain ⟨lb, hlb⟩ := parse_labels_ok fs hlab
  obtain ⟨ds, hds⟩ := parse_descriptions_ok fs hdesc
  obtain ⟨al, hal⟩ := parse_aliases_ok fs hali
  obtain ⟨cs, hcs, hwf⟩ := claimsOf_obj fs hcl
  have hclget : pyDictGet (.obj fs) "claims" (.obj []) = .ok (claimsOf (.obj fs)) := by
    simp [pyDictGet, claimsOf]
  have hprops := extractProps_ok cs property_id_to_name hwf
  refine ⟨(fs.lookup "id").getD (.str ""), lb, ds, al, ?_⟩
  have hget : (List.lookup "claims" fs).getD (J.obj []) = J.obj cs := hcs
  rw [hcs]
  simp only [tryParse, hlb, hds, hal, pym_bind_ok, pyDictGet, hget, hprops]

theorem table_name_facts : ∀ p ∈ property_id_to_name,
    property_id_to_name.countP (fun q => q.2 == p.2) = 1 ∧
    (("qid" : String) == p.2) = false ∧
    (("labels" : String) == p.2) = false ∧
    (("descriptions" : String) == p.2) = false ∧
    (("aliases" : String) == p.2) = false := by decide

theorem stmtListOf_nil_of_stmtsOf_none (m : J) (pid : String)
    (h : stmtsOf m pid = none) : stmtListOf (claimsOf m) pid = [] := by
  cases hc : claimsOf m
  case obj cs =>
    simp only [stmtsOf, hc] at h
    simp [stmtListOf, h]
  all_goals rfl

/-- C1: for any RawEntityRecord given to `parse_entity_metadata`, the
returned record contains exactly one value-list entry per property name
of the static table, regardless of which properties the input contains;
a property identifier absent from the input's claims yields an empty
list, never absence of the key. -/
theorem claim_C1_schema_stability (m : J) (h : wfRaw m = true) :
    ∃ fields, parse_entity_metadata m = .ok (.obj fields) ∧
      ∀ p ∈ property_id_to_name,
        fields.countP (fun kv => kv.1 == p.2) = 1 ∧
        (∃ vs, (p.2, J.arr vs) ∈ fields) ∧
        (stmtsOf m p.1 = none → (p.2, J.arr []) ∈ fields) := by
  cases m
  case obj fs =>
    obtain ⟨a, lb, ds, al, htp⟩ := tryParse_shape fs h
    refine ⟨[("qid", a), ("labels", J.obj lb), ("descriptions", J.obj ds),
             ("aliases", J.obj al)] ++
        property_id_to_name.map (fun p =>
          (p.2, J.arr ((stmtListOf (claimsOf (J.obj fs)) p.1).map extractValuePure))),
      by simp [parse_entity_metadata, htp], ?_⟩
    intro p hp
    obtain ⟨hcount, hq, hl, hd, hal2⟩ := table_name_facts p hp
    refine ⟨?_, ?_, ?_⟩
    · rw [List.countP_append, List.countP_map]
      simp only [List.countP_cons, List.countP_nil, hq, hl, hd, hal2]
      simpa [Function.comp] using hcount
    · exact ⟨_, List.mem_append_right _ (List.mem_map_of_mem _ hp)⟩
    · intro hno
      have h0 := stmtListOf_nil_of_stmtsOf_none (J.obj fs) p.1 hno
      have h1 : (p.2, J.arr ((stmtListOf (claimsOf (J.obj fs)) p.1).map extractValuePure)) ∈
          property_id_to_name.map (fun q =>
            (q.2, J.arr ((stmtListOf (claimsOf (J.obj fs)) q.1).map extractValuePure))) :=
        List.mem_map_of_mem _ hp
      rw [h0] at h1
      exact List.mem_append_right _ h1
  all_goals simp [wfRaw] at h

theorem claim_C1_schema_stability_witness :
    wfRaw (J.obj []) = true ∧
    (∃ fields, parse_entity_metadata (J.obj []) = .ok (.obj fields) ∧
      ∀ p ∈ property_id_to_name,
        fields.countP (fun kv => kv.1 == p.2) = 1 ∧
        (∃ vs, (p.2, J.arr vs) ∈ fields) ∧
        (stmtsOf (J.obj []) p.1 = none → (p.2, J.arr []) ∈ fields)) :=
  ⟨rfl, claim_C1_schema_stability (J.obj []) rfl⟩

/-- C2 counterexample: an input that is not a mapping makes
`parse_entity_metadata` itself raise (the log line in the exception
handler calls `metadata.get`, which fails on a non-dict), so a thrown
failure does reach the caller, contrary to the claim. -/
theorem claim_C2_counterexample :
    parse_entity_metadata (J.num 5) = .error PyExc.attributeError := rfl

/-- C2 amended: for dict inputs, any exception during traversal is
caught and the degraded record (best-available id, empty label,
description and alias maps) is returned; but for a non-dict input the
exception handler itself raises AttributeError, which reaches the
caller. -/
theorem claim_C2_degraded_amended :
    (∀ m : J, (∀ fs, m ≠ J.obj fs) →
      parse_entity_metadata m = .error PyExc.attributeError) ∧
    (∀ (fs : List (String × J)) (e : PyExc), tryParse (.obj fs) = .error e →
      parse_entity_metadata (.obj fs) = .ok (degradedRecord fs)) := by
  constructor
  · intro m hm
    cases m
    case obj fs => exact absurd rfl (hm fs)
    all_goals rfl
  · intro fs e htp
    simp [parse_entity_metadata, htp]

theorem claim_C2_degraded_amended_witness :
    ((∀ fs, J.num 5 ≠ J.obj fs) ∧
      parse_entity_metadata (J.num 5) = .error PyExc.attributeError) ∧
    (tryParse (J.obj corruptLabelsFields) = .error PyExc.typeError ∧
      parse_entity_metadata (J.obj corruptLabelsFields) =
        .ok (degradedRecord corruptLabelsFields)) :=
  ⟨⟨fun _ h => J.noConfusion h,
    claim_C2_degraded_amended.1 (J.num 5) (fun _ h => J.noConfusion h)⟩,
   ⟨rfl, claim_C2_degraded_amended.2 corruptLabelsFields PyExc.typeError rfl⟩⟩

/-- C3 counterexample: a record whose labels map has one well-formed
language entry ("en") and one corrupt entry ("bo").  The claim says the
corrupt entry is skipped and the rest still extracted; the code instead
degrades the whole record — the output labels map is empty and the
well-formed "en" entry is lost. -/
theorem claim_C3_counterexample :
    parse_entity_metadata corruptLabelsRec =
      .ok (.obj [("qid", J.str "Q1"), ("labels", J.obj []),
                 ("descriptions", J.obj []), ("aliases", J.obj [])]) ∧
    wfLangEntry (J.obj [("value", J.str "ok")]) = true := ⟨rfl, rfl⟩

/-- C3 amended: one malformed language entry is fatal to the extraction
of the whole record — when label parsing raises, `parse_entity_metadata`
returns the fully degraded record (empty labels, descriptions and
aliases, no property lists); the failure stays caught for dict inputs,
but no partial per-language data survives. -/
theorem claim_C3_malformed_language_amended (fs : List (String × J)) (e : PyExc)
    (h : _parse_labels (.obj fs) = .error e) :
    parse_entity_metadata (.obj fs) = .ok (degradedRecord fs) := by
  have htp : tryParse (.obj fs) = .error e := by simp [tryParse, h]
  simp [parse_entity_metadata, htp]

theorem claim_C3_malformed_language_amended_witness :
    _parse_labels corruptLabelsRec = .error PyExc.typeError ∧
    parse_entity_metadata corruptLabelsRec = .ok (degradedRecord corruptLabelsFields) :=
  ⟨rfl, claim_C3_malformed_language_amended corruptLabelsFields PyExc.typeError rfl⟩

/-- C4: for every statement under a table-defined property, extraction
takes the statement's main value; a dict value carrying a nested "id"
entry is flattened to the bare identifier, any other value (None for a
missing value, numbers, strings, structured literals) is kept unchanged;
the output list has one entry per statement in source order. -/
theorem claim_C4_reference_flattening (cs : List (String × J)) (pid : String)
    (stmts : List J) (h1 : cs.lookup pid = some (.arr stmts))
    (h2 : ∀ s ∈ stmts, wfStatement s = true) :
    _extract_property_values (.obj cs) pid = .ok (stmts.map extractValuePure) ∧
    ∀ s ∈ stmts,
      (∀ vfs i, mainValue s = .obj vfs → vfs.lookup "id" = some i →
        extractValuePure s = i) ∧
      (∀ vfs, mainValue s = .obj vfs → vfs.lookup "id" = none →
        extractValuePure s = .obj vfs) ∧
      ((∀ vfs, mainValue s ≠ J.obj vfs) → extractValuePure s = mainValue s) := by
  constructor
  · have hw : wfStmtsAt cs pid = true := by
      unfold wfStmtsAt
      rw [h1]
      show List.all stmts wfStatement = true
      rw [List.all_eq_true]
      exact fun s hs => h2 s hs
    have h3 := extract_property_values_ok cs pid hw
    rwa [show stmtListOf (.obj cs) pid = stmts from by simp [stmtListOf, h1]] at h3
  · intro s _
    refine ⟨?_, ?_, ?_⟩
    · intro vfs i hmv hid
      simp [extractValuePure, hmv, hid]
    · intro vfs hmv hid
      simp [extractValuePure, hmv, hid]
    · intro hmv
      cases hv : mainValue s <;> simp [extractValuePure, hv]
      case obj vfs => exact absurd hv (hmv vfs)

theorem mem_keys_of_lookup {β : Type} (l : List (String × β)) (k : String) (x : β)
    (h : List.lookup k l = some x) : k ∈ l.map Prod.fst := by
  induction l with
  | nil => simp [List.lookup] at h
  | cons hd tl ih =>
    obtain ⟨a, b⟩ := hd
    cases hk : k == a with
    | true =>
      have hak : k = a := eq_of_beq hk
      simp [hak]
    | false =>
      rw [List.lookup_cons, hk] at h
      simpa using Or.inr (ih h)

theorem length_filter_le_of_imp (l : List String) (p q : String → Bool)
    (h : ∀ x, p x = true → q x = true) :
    (l.filter p).length ≤ (l.filter q).length := by
  induction l with
  | nil => simp
  | cons a tl ih =>
    rw [List.filter_cons, List.filter_cons]
    by_cases hp : p a = true
    · rw [if_pos hp, if_pos (h a hp)]
      simpa using ih
    · rw [if_neg hp]
      by_cases hq : q a = true
      · rw [if_pos hq]
        exact Nat.le_trans ih (by simp)
      · rw [if_neg hq]
        exact ih

theorem length_filter_lt (l : List String) (p q : String → Bool) (a : String)
    (ha : a ∈ l) (hqa : q a = true) (hpa : p a = false)
    (h : ∀ x, p x = true → q x = true) :
    (l.filter p).length < (l.filter q).length := by
  induction l with
  | nil => cases ha
  | cons b tl ih =>
    rw [List.filter_cons, List.filter_cons]
    rcases List.mem_cons.mp ha with rfl | hmem
    · rw [if_neg (by simp [hpa]), if_pos hqa]
      exact Nat.lt_succ_of_le (length_filter_le_of_imp tl p q h)
    · by_cases hp : p b = true
      · rw [if_pos hp, if_pos (h b hp)]
        simpa using ih hmem
      · rw [if_neg hp]
        by_cases hq : q b = true
        · rw [if_pos hq]
          exact Nat.lt_of_lt_of_le (ih hmem) (by simp)
        · rw [if_neg hq]
          exact ih hmem

theorem unvisitedCount_lt (db : WDB) (v : List String) (q : String)
    (hq : q ∈ db.map Prod.fst) (hv : q ∉ v) :
    unvisitedCount db (q :: v) < unvisitedCount db v := by
  refine length_filter_lt _ _ _ q hq (by simpa using hv) (by simp) ?_
  intro x hx
  simp only [decide_eq_true_eq] at hx ⊢
  exact fun hxv => hx (List.mem_cons_of_mem _ hxv)

theorem unvisitedCount_mono (db : WDB) (v v2 : List String) (h : v ⊆ v2) :
    unvisitedCount db v2 ≤ unvisitedCount db v := by
  refine length_filter_le_of_imp _ _ _ ?_
  intro x hx
  simp only [decide_eq_true_eq] at hx ⊢
  exact fun hxv => hx (h hxv)

theorem unvisitedCount_le_length (db : WDB) (v : List String) :
    unvisitedCount db v ≤ db.length := by
  refine Nat.le_trans (List.length_filter_le _ _) ?_
  rw [List.length_map]

theorem stepOk_refl (rels : List String) (st : WSt) : StepOk rels st st :=
  ⟨fun _ h => h, ⟨[], by simp, by simp, by simp⟩, ⟨[], by simp, by simp⟩⟩

theorem stepOk_trans {rels : List String} {st1 st2 st3 : WSt}
    (h1 : StepOk rels st1 st2) (h2 : StepOk rels st2 st3) : StepOk rels st1 st3 := by
  obtain ⟨hv1, ⟨d1, hd1, hn1, hm1⟩, ⟨f1, hf1, he1⟩⟩ := h1
  obtain ⟨hv2, ⟨d2, hd2, hn2, hm2⟩, ⟨f2, hf2, he2⟩⟩ := h2
  refine ⟨fun x hx => hv2 (hv1 hx), ⟨d1 ++ d2, ?_, ?_, ?_⟩, ⟨f1 ++ f2, ?_, ?_⟩⟩
  · rw [hd2, hd1, List.append_assoc]
  · rw [List.map_append, List.nodup_append]
    refine ⟨hn1, hn2, ?_⟩
    intro x hx1 hx2
    have hx1v : x ∈ st2.1 := by
      obtain ⟨p, hp, rfl⟩ := List.mem_map.mp hx1
      exact (hm1 p hp).2
    obtain ⟨p, hp, rfl⟩ := List.mem_map.mp hx2
    exact (hm2 p hp).1 hx1v
  · intro p hp
    rcases List.mem_append.mp hp with hmem | hmem
    · exact ⟨(hm1 p hmem).1, hv2 (hm1 p hmem).2⟩
    · exact ⟨fun hx => (hm2 p hmem).1 (hv1 hx), (hm2 p hmem).2⟩
  · rw [hf2, hf1, List.append_assoc]
  · intro ed hed
    rcases List.mem_append.mp hed with hmem | hmem
    · obtain ⟨ha, hb, hc, hd, he⟩ := he1 ed hmem
      exact ⟨ha, hv2 hb, by rw [hd2]; exact List.mem_append_left _ hc, hd, he⟩
    · exact he2 ed hmem

theorem stepOk_visit (rels : List String) (q : String) (v : List String)
    (e : List GraphEdge) (tr : List (String × Bool)) (b : Bool) (hq : q ∉ v) :
    StepOk rels (v, e, tr) (q :: v, e, tr ++ [(q, b)]) := by
  refine ⟨fun x hx => List.mem_cons_of_mem _ hx,
    ⟨[(q, b)], rfl, by simp, ?_⟩, ⟨[], by simp, by simp⟩⟩
  intro p hp
  rw [List.mem_singleton] at hp
  subst hp
  exact ⟨hq, List.mem_cons_self _ _⟩

theorem stepOk_edge (rels : List String) (rel q s : String) (v : List String)
    (e : List GraphEdge) (tr : List (String × Bool)) (hrel : rel ∈ rels)
    (hq : q ∈ v) (htr : (q, true) ∈ tr) (hs : s ≠ "")
    (hsw : pyStartsWith s "Q" = true) :
    StepOk rels (v, e, tr) (v, e ++ [(⟨q, s, rel⟩ : GraphEdge)], tr) := by
  refine ⟨fun x hx => hx, ⟨[], by simp, by simp, by simp⟩,
    ⟨[⟨q, s, rel⟩], rfl, ?_⟩⟩
  intro ed hed
  rw [List.mem_singleton] at hed
  subst hed
  exact ⟨hrel, hq, htr, hs, hsw⟩

theorem truthy_ne_empty (s : String) (h : pyTruthy (.str s) = true) : s ≠ "" := by
  intro heq
  subst heq
  exact absurd h (by decide)

theorem walkChildren_stepOk (rels : List String)
    (next : String → List String → List GraphEdge → List (String × Bool) →
      Option (PyM WSt)) (hnext : NextOk rels next)
    (rel qid : String) (hrel : rel ∈ rels) :
    ∀ (vals : List J) (v : List String) (e : List GraphEdge)
      (tr : List (String × Bool)) (st2 : WSt), qid ∈ v → (qid, true) ∈ tr →
      walkChildren next rel qid vals v e tr = some (.ok st2) →
      StepOk rels (v, e, tr) st2 := by
  intro vals
  induction vals with
  | nil =>
    intro v e tr st2 _ _ h
    obtain ⟨v2, e2, tr2⟩ := st2
    simp only [walkChildren, Option.some.injEq, Except.ok.injEq, Prod.mk.injEq] at h
    obtain ⟨rfl, rfl, rfl⟩ := h
    exact stepOk_refl rels _
  | cons val rest ih =>
    intro v e tr st2 hq htr h
    cases val with
    | str s =>
      by_cases hc : (pyTruthy (.str s) && pyStartsWith s "Q") = true
      · rw [walkChildren, if_pos hc] at h
        rw [Bool.and_eq_true] at hc
        obtain ⟨ht, hw⟩ := hc
        cases hn : next s v (e ++ [⟨qid, s, rel⟩]) tr with
        | none =>
          rw [hn] at h
          exact Option.noConfusion h
        | some r =>
          cases r with
          | error ex =>
            rw [hn] at h
            exact Except.noConfusion (Option.some.inj h)
          | ok st1 =>
            obtain ⟨v1, e1, tr1⟩ := st1
            rw [hn] at h
            have h2 : walkChildren next rel qid rest v1 e1 tr1 = some (.ok st2) := h
            have s0 : StepOk rels (v, e, tr) (v, e ++ [⟨qid, s, rel⟩], tr) :=
              stepOk_edge rels rel qid s v e tr hrel hq htr (truthy_ne_empty s ht) hw
            have s1 : StepOk rels (v, e ++ [⟨qid, s, rel⟩], tr) (v1, e1, tr1) :=
              hnext s v (e ++ [⟨qid, s, rel⟩]) tr (v1, e1, tr1) hn
            have hq1 : qid ∈ v1 := s1.1 hq
            have htr1 : (qid, true) ∈ tr1 := by
              obtain ⟨d, hd, _, _⟩ := s1.2.1
              have hd2 : tr1 = tr ++ d := hd
              rw [hd2]
              exact List.mem_append_left _ htr
            exact stepOk_trans (stepOk_trans s0 s1) (ih v1 e1 tr1 st2 hq1 htr1 h2)
      · rw [walkChildren, if_neg hc] at h
        exact ih v e tr st2 hq htr h
    | null => exact ih v e tr st2 hq htr h
    | bool b => exact ih v e tr st2 hq htr h
    | num n => exact ih v e tr st2 hq htr h
    | arr xs => exact ih v e tr st2 hq htr h
    | obj fs => exact ih v e tr st2 hq htr h

theorem walkProps_stepOk (rels : List String)
    (next : String → List String → List GraphEdge → List (String × Bool) →
      Option (PyM WSt)) (hnext : NextOk rels next) (qid : String) (pm : J) :
    ∀ (props2 : List String) (v : List String) (e : List GraphEdge)
      (tr : List (String × Bool)) (st2 : WSt), (∀ p ∈ props2, p ∈ rels) →
      qid ∈ v → (qid, true) ∈ tr →
      walkProps next qid pm props2 v e tr = some (.ok st2) →
      StepOk rels (v, e, tr) st2 := by
  intro props2
  induction props2 with
  | nil =>
    intro v e tr st2 _ _ _ h
    obtain ⟨v2, e2, tr2⟩ := st2
    simp only [walkProps, Option.some.injEq, Except.ok.injEq, Prod.mk.injEq] at h
    obtain ⟨rfl, rfl, rfl⟩ := h
    exact stepOk_refl rels _
  | cons pname rest ih =>
    intro v e tr st2 hsub hq htr h
    rw [walkProps] at h
    split at h
    · exact Except.noConfusion (Option.some.inj h)
    · rename_i vals hpv
      split at h
      · exact Option.noConfusion h
      · exact Except.noConfusion (Option.some.inj h)
      · rename_i v1 e1 tr1 hwc
        have h2 : walkProps next qid pm rest v1 e1 tr1 = some (.ok st2) := h
        have s1 : StepOk rels (v, e, tr) (v1, e1, tr1) :=
          walkChildren_stepOk rels next hnext pname qid
            (hsub pname (List.mem_cons_self _ _)) vals v e tr (v1, e1, tr1)
            hq htr hwc
        have hq1 : qid ∈ v1 := s1.1 hq
        have htr1 : (qid, true) ∈ tr1 := by
          obtain ⟨d, hd, _, _⟩ := s1.2.1
          have hd2 : tr1 = tr ++ d := hd
          rw [hd2]
          exact List.mem_append_left _ htr
        exact stepOk_trans s1
          (ih v1 e1 tr1 st2 (fun p hp => hsub p (List.mem_cons_of_mem _ hp))
            hq1 htr1 h2)

theorem walkF_stepOk (db : WDB) (props : List String) :
    ∀ (n : Nat) (q : String) (v : List String) (e : List GraphEdge)
      (tr : List (String × Bool)) (st2 : WSt),
      walkF db props n q v e tr = some (.ok st2) →
      StepOk props (v, e, tr) st2 := by
  intro n
  induction n with
  | zero =>
    intro q v e tr st2 h
    exact Option.noConfusion h
  | succ n ih =>
    intro q v e tr st2 h
    obtain ⟨v2, e2, tr2⟩ := st2
    rw [walkF] at h
    by_cases hv : q ∈ v
    · rw [if_pos hv] at h
      simp only [Option.some.injEq, Except.ok.injEq, Prod.mk.injEq] at h
      obtain ⟨rfl, rfl, rfl⟩ := h
      exact stepOk_refl props _
    · rw [if_neg hv] at h
      split at h
      · simp only [Option.some.injEq, Except.ok.injEq, Prod.mk.injEq] at h
        obtain ⟨rfl, rfl, rfl⟩ := h
        exact stepOk_visit props q v e tr false hv
      · rename_i ent hf
        split at h
        · rename_i htru
          split at h
          · exact Except.noConfusion (Option.some.inj h)
          · rename_i pm hp
            have h2 : walkProps (fun q2 vv ee tt => walkF db props n q2 vv ee tt)
                q pm props (q :: v) e (tr ++ [(q, true)]) =
                some (.ok (v2, e2, tr2)) := h
            have hnext : NextOk props
                (fun q2 vv ee tt => walkF db props n q2 vv ee tt) :=
              fun q2 vv ee tt st hcall => ih q2 vv ee tt st hcall
            have s1 : StepOk props (q :: v, e, tr ++ [(q, true)]) (v2, e2, tr2) :=
              walkProps_stepOk props _ hnext q pm props (q :: v) e
                (tr ++ [(q, true)]) (v2, e2, tr2) (fun p hp2 => hp2)
                (List.mem_cons_self _ _)
                (List.mem_append_right _ (List.mem_singleton.mpr rfl)) h2
            exact stepOk_trans (stepOk_visit props q v e tr true hv) s1
        · simp only [Option.some.injEq, Except.ok.injEq, Prod.mk.injEq] at h
          obtain ⟨rfl, rfl, rfl⟩ := h
          exact stepOk_visit props q v e tr true hv

theorem walkChildren_isSome (db : WDB) (rels : List String) (n : Nat)
    (next : String → List String → List GraphEdge → List (String × Bool) →
      Option (PyM WSt)) (hnext : NextOk rels next)
    (hsome : ∀ q v e tr, unvisitedCount db v < n → (next q v e tr).isSome = true)
    (rel qid : String) (hrel : rel ∈ rels) :
    ∀ (vals : List J) (v : List String) (e : List GraphEdge)
      (tr : List (String × Bool)), qid ∈ v → (qid, true) ∈ tr →
      unvisitedCount db v < n →
      (walkChildren next rel qid vals v e tr).isSome = true := by
  intro vals
  induction vals with
  | nil => intro v e tr _ _ _; rfl
  | cons val rest ih =>
    intro v e tr hq htr hn
    cases val with
    | str s =>
      by_cases hc : (pyTruthy (.str s) && pyStartsWith s "Q") = true
      · rw [walkChildren, if_pos hc]
        have hs := hsome s v (e ++ [⟨qid, s, rel⟩]) tr hn
        cases hcall : next s v (e ++ [⟨qid, s, rel⟩]) tr with
        | none =>
          rw [hcall] at hs
          exact absurd hs (by simp)
        | some r =>
          cases r with
          | error ex => rfl
          | ok st1 =>
            obtain ⟨v1, e1, tr1⟩ := st1
            have s1 : StepOk rels (v, e ++ [⟨qid, s, rel⟩], tr) (v1, e1, tr1) :=
              hnext s v (e ++ [⟨qid, s, rel⟩]) tr (v1, e1, tr1) hcall
            have hq1 : qid ∈ v1 := s1.1 hq
            have htr1 : (qid, true) ∈ tr1 := by
              obtain ⟨d, hd, _, _⟩ := s1.2.1
              have hd2 : tr1 = tr ++ d := hd
              rw [hd2]
              exact List.mem_append_left _ htr
            have hn1 : unvisitedCount db v1 < n :=
              Nat.lt_of_le_of_lt (unvisitedCount_mono db v v1 s1.1) hn
            exact ih v1 e1 tr1 hq1 htr1 hn1
      · rw [walkChildren, if_neg hc]
        exact ih v e tr hq htr hn
    | null => exact ih v e tr hq htr hn
    | bool b => exact ih v e tr hq htr hn
    | num m => exact ih v e tr hq htr hn
    | arr xs => exact ih v e tr hq htr hn
    | obj fs => exact ih v e tr hq htr hn

theorem walkProps_isSome (db : WDB) (rels : List String) (n : Nat)
    (next : String → List String → List GraphEdge → List (String × Bool) →
      Option (PyM WSt)) (hnext : NextOk rels next)
    (hsome : ∀ q v e tr, unvisitedCount db v < n → (next q v e tr).isSome = true)
    (qid : String) (pm : J) :
    ∀ (props2 : List String) (v : List String) (e : List GraphEdge)
      (tr : List (String × Bool)), (∀ p ∈ props2, p ∈ rels) →
      qid ∈ v → (qid, true) ∈ tr → unvisitedCount db v < n →
      (walkProps next qid pm props2 v e tr).isSome = true := by
  intro props2
  induction props2 with
  | nil => intro v e tr _ _ _ _; rfl
  | cons pname rest ih =>
    intro v e tr hsub hq htr hn
    rw [walkProps]
    cases hpv : pmVals pm pname with
    | error ex => rfl
    | ok vals =>
      show (match walkChildren next pname qid vals v e tr with
        | none => none
        | some (Except.error ex) => some (Except.error ex)
        | some (Except.ok (v2, e2, tr2)) =>
          walkProps next qid pm rest v2 e2 tr2).isSome = true
      have hwc := walkChildren_isSome db rels n next hnext hsome pname qid
        (hsub pname (List.mem_cons_self _ _)) vals v e tr hq htr hn
      cases hcall : walkChildren next pname qid vals v e tr with
      | none =>
        rw [hcall] at hwc
        exact absurd hwc (by simp)
      | some r =>
        cases r with
        | error ex => rfl
        | ok st1 =>
          obtain ⟨v1, e1, tr1⟩ := st1
          have s1 : StepOk rels (v, e, tr) (v1, e1, tr1) :=
            walkChildren_stepOk rels next hnext pname qid
              (hsub pname (List.mem_cons_self _ _)) vals v e tr (v1, e1, tr1)
              hq htr hcall
          have hq1 : qid ∈ v1 := s1.1 hq
          have htr1 : (qid, true) ∈ tr1 := by
            obtain ⟨d, hd, _, _⟩ := s1.2.1
            have hd2 : tr1 = tr ++ d := hd
            rw [hd2]
            exact List.mem_append_left _ htr
          have hn1 : unvisitedCount db v1 < n :=
            Nat.lt_of_le_of_lt (unvisitedCount_mono db v v1 s1.1) hn
          exact ih v1 e1 tr1 (fun p hp => hsub p (List.mem_cons_of_mem _ hp))
            hq1 htr1 hn1

theorem walkF_isSome (db : WDB) (props : List String) :
    ∀ (n : Nat) (q : String) (v : List String) (e : List GraphEdge)
      (tr : List (String × Bool)), unvisitedCount db v < n →
      (walkF db props n q v e tr).isSome = true := by
  intro n
  induction n with
  | zero =>
    intro q v e tr hn
    exact absurd hn (Nat.not_lt_zero _)
  | succ n ih =>
    intro q v e tr hn
    rw [walkF]
    by_cases hv : q ∈ v
    · rw [if_pos hv]; rfl
    · rw [if_neg hv]
      cases hf : fetchEntity db q with
      | none => rfl
      | some ent =>
        show (if pyTruthy ent = true then
            (match parse_entity_metadata ent with
              | Except.error ex => some (Except.error ex)
              | Except.ok pm =>
                walkProps (fun q2 vv ee tt => walkF db props n q2 vv ee tt) q pm
                  props (q :: v) e (tr ++ [(q, true)]))
          else some (Except.ok (q :: v, e, tr ++ [(q, true)]))).isSome = true
        by_cases htru : pyTruthy ent = true
        · rw [if_pos htru]
          cases hp : parse_entity_metadata ent with
          | error ex => rfl
          | ok pm =>
            have hq2 : unvisitedCount db (q :: v) < n := by
              have hkey : q ∈ db.map Prod.fst := mem_keys_of_lookup db q ent hf
              have hlt := unvisitedCount_lt db v q hkey hv
              omega
            have hnext : NextOk props
                (fun q2 vv ee tt => walkF db props n q2 vv ee tt) :=
              fun q2 vv ee tt st hcall => walkF_stepOk db props n q2 vv ee tt st hcall
            exact walkProps_isSome db props n _ hnext
              (fun q2 vv ee tt hlt => ih q2 vv ee tt hlt) q pm props (q :: v) e
              (tr ++ [(q, true)]) (fun p hp2 => hp2) (List.mem_cons_self _ _)
              (List.mem_append_right _ (List.mem_singleton.mpr rfl)) hq2
        · rw [if_neg htru]; rfl

/-- C5: `walk` terminates on every finite relationship database,
including cyclic and self-referential ones (the fuel supplied by `walk`
provably never runs out, because an already-visited start returns
immediately); in particular on the two-cycle where Q1's edition list
contains Q2 and vice versa, `walk` returns, and the edge list contains
the Q1-to-Q2 and Q2-to-Q1 edges exactly once each. -/
theorem claim_C5_termination_on_cycles :
    (∀ (db : WDB) (qid : String), (walk db qid).isSome = true) ∧
    walk cycleDb "Q1" =
      some (.ok (["Q2", "Q1"],
        [⟨"Q1", "Q2", "has_edition"⟩, ⟨"Q2", "Q1", "has_edition"⟩],
        [("Q1", true), ("Q2", true)])) := by
  constructor
  · intro db qid
    apply walkF_isSome
    have h1 := unvisitedCount_le_length db []
    omega
  · rfl

theorem walkF_self_mem (db : WDB) (props : List String) (n : Nat) (q : String)
    (v : List String) (e : List GraphEdge) (tr : List (String × Bool)) (st2 : WSt)
    (h : walkF db props n q v e tr = some (.ok st2)) : q ∈ st2.1 := by
  cases n with
  | zero => exact Option.noConfusion h
  | succ n =>
    obtain ⟨v2, e2, tr2⟩ := st2
    rw [walkF] at h
    by_cases hv : q ∈ v
    · rw [if_pos hv] at h
      simp only [Option.some.injEq, Except.ok.injEq, Prod.mk.injEq] at h
      obtain ⟨rfl, rfl, rfl⟩ := h
      exact hv
    · rw [if_neg hv] at h
      split at h
      · simp only [Option.some.injEq, Except.ok.injEq, Prod.mk.injEq] at h
        obtain ⟨rfl, rfl, rfl⟩ := h
        exact List.mem_cons_self _ _
      · rename_i ent hf
        split at h
        · split at h
          · exact Except.noConfusion (Option.some.inj h)
          · rename_i pm hp
            have h2 : walkProps (fun q2 vv ee tt => walkF db props n q2 vv ee tt)
                q pm props (q :: v) e (tr ++ [(q, true)]) =
                some (.ok (v2, e2, tr2)) := h
            have hnext : NextOk props
                (fun q2 vv ee tt => walkF db props n q2 vv ee tt) :=
              fun q2 vv ee tt st hcall => walkF_stepOk db props n q2 vv ee tt st hcall
            have s1 : StepOk props (q :: v, e, tr ++ [(q, true)]) (v2, e2, tr2) :=
              walkProps_stepOk props _ hnext q pm props (q :: v) e
                (tr ++ [(q, true)]) (v2, e2, tr2) (fun p hp2 => hp2)
                (List.mem_cons_self _ _)
                (List.mem_append_right _ (List.mem_singleton.mpr rfl)) h2
            exact s1.1 (List.mem_cons_self _ _)
        · simp only [Option.some.injEq, Except.ok.injEq, Prod.mk.injEq] at h
          obtain ⟨rfl, rfl, rfl⟩ := h
          exact List.mem_cons_self _ _

/-- C6: within one top-level walk invocation, the fetch collaborator
`get_entity_metadata_by_qid` is invoked at most once per distinct entity
identifier — the recorded list of fetch arguments has no duplicates. -/
theorem claim_C6_fetch_at_most_once (db : WDB) (qid : String) (v : List String)
    (e : List GraphEdge) (tr : List (String × Bool))
    (h : walk db qid = some (.ok (v, e, tr))) : (tr.map Prod.fst).Nodup := by
  have s := walkF_stepOk db walkRels (db.length + 1) qid [] [] [] (v, e, tr) h
  obtain ⟨_, ⟨d, hd, hnd, _⟩, _⟩ := s
  have hd2 : tr = [] ++ d := hd
  rw [hd2]
  simpa using hnd

theorem claim_C6_fetch_at_most_once_witness :
    walk cycleDb "Q1" =
      some (.ok (["Q2", "Q1"],
        [⟨"Q1", "Q2", "has_edition"⟩, ⟨"Q2", "Q1", "has_edition"⟩],
        [("Q1", true), ("Q2", true)])) ∧
    (([("Q1", true), ("Q2", true)].map Prod.fst).Nodup) :=
  ⟨rfl, claim_C6_fetch_at_most_once cycleDb "Q1" _ _ _ rfl⟩

/-- C8 counterexample: the value "Qabc" is not a letter prefix followed
by digits (the spec's notion of a syntactically valid entity
identifier), yet the walk emits an edge for it and recurses on it (the
fetch trace records the attempted fetch of "Qabc") — the code only
checks `startswith("Q")`. -/
theorem claim_C8_counterexample :
    walk qabcDb "Q1" =
      some (.ok (["Qabc", "Q1"],
        [⟨"Q1", "Qabc", "has_edition"⟩], [("Q1", true), ("Qabc", false)])) ∧
    specQidShaped "Qabc" = false := ⟨rfl, rfl⟩

/-- C8 amended: a property value that is not a non-empty string starting
with "Q" (the actual check: truthiness, string type, `startswith("Q")`)
is silently skipped — no edge is appended and the recursion continuation
is not invoked for it; values that pass that weaker check, such as
"Qabc", are traversed even when they are not letter-prefix-plus-digits. -/
theorem claim_C8_invalid_value_skipped
    (next : String → List String → List GraphEdge → List (String × Bool) →
      Option (PyM WSt)) (rel qid : String) (val : J) (rest : List J)
    (v : List String) (e : List GraphEdge) (tr : List (String × Bool))
    (h : isTraversable val = false) :
    walkChildren next rel qid (val :: rest) v e tr =
      walkChildren next rel qid rest v e tr := by
  cases val with
  | str s =>
    have hc : (pyTruthy (.str s) && pyStartsWith s "Q") = false := h
    rw [walkChildren, if_neg (by simp [hc])]
  | null => rfl
  | bool b => rfl
  | num m => rfl
  | arr xs => rfl
  | obj fs => rfl

theorem claim_C8_invalid_value_skipped_witness :
    isTraversable (J.num 3) = false ∧
    walkChildren (fun _ _ _ _ => none) "has_edition" "Q1" [J.num 3] [] [] [] =
      walkChildren (fun _ _ _ _ => none) "has_edition" "Q1" [] [] [] [] :=
  ⟨rfl, claim_C8_invalid_value_skipped _ "has_edition" "Q1" (J.num 3) [] [] [] [] rfl⟩

/-- C9: when the fetch of an identifier fails, the walk emits no edges
from that identifier and ends only that branch — the identifier is still
marked visited and recorded as fetched, a later encounter returns
immediately without a retry, and (concretely) siblings of a failing
branch are still walked. -/
theorem claim_C9_fetch_failure_branch (db : WDB) (props : List String) (n : Nat)
    (qid : String) (v : List String) (e : List GraphEdge)
    (tr : List (String × Bool)) (h1 : qid ∉ v) (h2 : fetchEntity db qid = none) :
    walkF db props (n + 1) qid v e tr =
      some (.ok (qid :: v, e, tr ++ [(qid, false)])) ∧
    (∀ (m : Nat) (v2 : List String) (e2 : List GraphEdge)
      (tr2 : List (String × Bool)), qid ∈ v2 →
      walkF db props (m + 1) qid v2 e2 tr2 = some (.ok (v2, e2, tr2))) ∧
    walk failDb "Q1" =
      some (.ok (["Q4", "Q3", "Q2", "Q1"],
        [⟨"Q1", "Q2", "has_edition"⟩, ⟨"Q1", "Q3", "has_edition"⟩,
         ⟨"Q3", "Q4", "has_edition"⟩],
        [("Q1", true), ("Q2", false), ("Q3", true), ("Q4", true)])) := by
  refine ⟨?_, ?_, rfl⟩
  · rw [walkF, if_neg h1, h2]
  · intro m v2 e2 tr2 hmem
    rw [walkF, if_pos hmem]

theorem claim_C9_fetch_failure_branch_witness :
    (("Q2" ∉ (["Q1"] : List String)) ∧ fetchEntity failDb "Q2" = none) ∧
    (walkF failDb walkRels 3 "Q2" ["Q1"] [] [("Q1", true)] =
      some (.ok (["Q2", "Q1"], [], [("Q1", true), ("Q2", false)])) ∧
    (∀ (m : Nat) (v2 : List String) (e2 : List GraphEdge)
      (tr2 : List (String × Bool)), "Q2" ∈ v2 →
      walkF failDb walkRels (m + 1) "Q2" v2 e2 tr2 = some (.ok (v2, e2, tr2))) ∧
    walk failDb "Q1" =
      some (.ok (["Q4", "Q3", "Q2", "Q1"],
        [⟨"Q1", "Q2", "has_edition"⟩, ⟨"Q1", "Q3", "has_edition"⟩,
         ⟨"Q3", "Q4", "has_edition"⟩],
        [("Q1", true), ("Q2", false), ("Q3", true), ("Q4", true)]))) :=
  ⟨⟨by decide, rfl⟩,
   claim_C9_fetch_failure_branch failDb walkRels 2 "Q2" ["Q1"] [] [("Q1", true)]
     (by decide) rfl⟩

/-- C10: every edge returned by `walk` is a record with exactly the
fields from, to and relationship (the `GraphEdge` structure), the
relationship is "has_edition" or "derivative_work", the from-identifier
was visited and successfully fetched during this walk, and the
to-identifier is a non-empty string beginning with "Q". -/
theorem claim_C10_edge_invariants (db : WDB) (qid : String) (v : List String)
    (e : List GraphEdge) (tr : List (String × Bool))
    (h : walk db qid = some (.ok (v, e, tr))) :
    ∀ ed ∈ e,
      (ed.relationship = "has_edition" ∨ ed.relationship = "derivative_work") ∧
      ed.«from» ∈ v ∧ (ed.«from», true) ∈ tr ∧ ed.«to» ≠ "" ∧
      pyStartsWith ed.«to» "Q" = true := by
  have s := walkF_stepOk db walkRels (db.length + 1) qid [] [] [] (v, e, tr) h
  obtain ⟨_, _, ⟨de, hde, hprop⟩⟩ := s
  intro ed hed
  have hde2 : e = de := hde
  rw [hde2] at hed
  obtain ⟨hrel, hfrom, htr3, hne, hsw⟩ := hprop ed hed
  refine ⟨?_, hfrom, htr3, hne, hsw⟩
  simpa [walkRels] using hrel

theorem claim_C10_edge_invariants_witness :
    walk cycleDb "Q1" =
      some (.ok (["Q2", "Q1"],
        [⟨"Q1", "Q2", "has_edition"⟩, ⟨"Q2", "Q1", "has_edition"⟩],
        [("Q1", true), ("Q2", true)])) ∧
    (∀ ed ∈ [(⟨"Q1", "Q2", "has_edition"⟩ : GraphEdge),
             ⟨"Q2", "Q1", "has_edition"⟩],
      (ed.relationship = "has_edition" ∨ ed.relationship = "derivative_work") ∧
      ed.«from» ∈ ["Q2", "Q1"] ∧ (ed.«from», true) ∈ [("Q1", true), ("Q2", true)] ∧
      ed.«to» ≠ "" ∧ pyStartsWith ed.«to» "Q" = true) :=
  ⟨rfl, claim_C10_edge_invariants cycleDb "Q1" _ _ _ rfl⟩

theorem travIds_cons_valid (s : String) (rest : List J)
    (hc : (pyTruthy (.str s) && pyStartsWith s "Q") = true) :
    travIds (J.str s :: rest) = s :: travIds rest := by
  rw [travIds, if_pos hc]

theorem travIds_cons_invalid_str (s : String) (rest : List J)
    (hc : (pyTruthy (.str s) && pyStartsWith s "Q") = false) :
    travIds (J.str s :: rest) = travIds rest := by
  rw [travIds, if_neg (by simp [hc])]

theorem travIds_cons_nonstr (val : J) (rest : List J)
    (h : ∀ s, val ≠ J.str s) : travIds (val :: rest) = travIds rest := by
  cases val with
  | str s => exact absurd rfl (h s)
  | null => rfl
  | bool b => rfl
  | num m => rfl
  | arr xs => rfl
  | obj fs => rfl

theorem nodeVals_run (db : WDB) (pname q : String) (ent pm : J) (vals : List J)
    (hf : fetchEntity db q = some ent) (htru : pyTruthy ent = true)
    (hp : parse_entity_metadata ent = .ok pm) (hpv : pmVals pm pname = .ok vals) :
    nodeVals db pname q = vals := by
  simp [nodeVals, hf, htru, hp, hpv]

theorem nodeVals_run_error (db : WDB) (pname q : String) (ent pm : J) (ex : PyExc)
    (hf : fetchEntity db q = some ent) (htru : pyTruthy ent = true)
    (hp : parse_entity_metadata ent = .ok pm) (hpv : pmVals pm pname = .error ex) :
    nodeVals db pname q = [] := by
  simp [nodeVals, hf, htru, hp, hpv]

theorem nodeVals_none (db : WDB) (pname q : String)
    (hf : fetchEntity db q = none) : nodeVals db pname q = [] := by
  simp [nodeVals, hf]

theorem nodeVals_falsy (db : WDB) (pname q : String) (ent : J)
    (hf : fetchEntity db q = some ent) (htru : pyTruthy ent = false) :
    nodeVals db pname q = [] := by
  simp [nodeVals, hf, htru]

theorem nodeVals_parse_error (db : WDB) (pname q : String) (ent : J) (ex : PyExc)
    (hf : fetchEntity db q = some ent) (htru : pyTruthy ent = true)
    (hp : parse_entity_metadata ent = .error ex) : nodeVals db pname q = [] := by
  simp [nodeVals, hf, htru, hp]

theorem succIds_mem (db : WDB) (props : List String) (y x : String) :
    x ∈ succIds db props y ↔ ∃ p ∈ props, x ∈ travIds (nodeVals db p y) := by
  simp [succIds, List.mem_flatten]

theorem nodeEdges_mem (db : WDB) (props : List String) (y : String)
    (ed : GraphEdge) :
    ed ∈ nodeEdges db props y ↔
      ∃ p ∈ props, ∃ s ∈ travIds (nodeVals db p y),
        ed = (⟨y, s, p⟩ : GraphEdge) := by
  unfold nodeEdges
  rw [List.mem_flatten]
  constructor
  · intro ⟨l, hl, hed⟩
    rw [List.mem_map] at hl
    obtain ⟨p, hp, rfl⟩ := hl
    rw [List.mem_map] at hed
    obtain ⟨s, hs, hed2⟩ := hed
    exact ⟨p, hp, s, hs, hed2.symm⟩
  · intro ⟨p, hp, s, hs, hed⟩
    subst hed
    exact ⟨(travIds (nodeVals db p y)).map (fun s2 => (⟨y, s2, p⟩ : GraphEdge)),
      List.mem_map_of_mem _ hp, List.mem_map_of_mem _ hs⟩

theorem nodeEdges_from (db : WDB) (props : List String) (y : String)
    (ed : GraphEdge) (h : ed ∈ nodeEdges db props y) : ed.«from» = y := by
  obtain ⟨p, _, s, _, rfl⟩ := (nodeEdges_mem db props y ed).mp h
  rfl

theorem reachAvoid_src_not_mem {db : WDB} {props avoid : List String}
    {q x : String} (h : ReachAvoid db props avoid q x) : q ∉ avoid := by
  induction h with
  | base hq => exact hq
  | step y x hy hx hnx ih => exact ih

theorem reachAvoid_dst_not_mem {db : WDB} {props avoid : List String}
    {q x : String} (h : ReachAvoid db props avoid q x) : x ∉ avoid := by
  cases h with
  | base hq => exact hq
  | step y x hy hx hnx => exact hnx

theorem reachAvoid_mono {db : WDB} {props avoid avoid2 : List String}
    {q x : String} (h : ReachAvoid db props avoid2 q x) (hsub : avoid ⊆ avoid2) :
    ReachAvoid db props avoid q x := by
  induction h with
  | base hq => exact ReachAvoid.base _ (fun hmem => hq (hsub hmem))
  | step y x hy hx hnx ih =>
    exact ReachAvoid.step _ _ _ ih hx (fun hmem => hnx (hsub hmem))

theorem reachAvoid_trans {db : WDB} {props avoid : List String}
    {y x : String} (h2 : ReachAvoid db props avoid y x) :
    ∀ q, ReachAvoid db props avoid q y → ReachAvoid db props avoid q x := by
  induction h2 with
  | base hy2 => exact fun q h1 => h1
  | step y2 x2 hy hx hnx ih =>
    exact fun q h1 => ReachAvoid.step _ _ _ (ih q h1) hx hnx

theorem reachAvoid_congr {db : WDB} {props1 props2 avoid : List String}
    {q x : String}
    (hsucc : ∀ y s, s ∈ succIds db props1 y ↔ s ∈ succIds db props2 y)
    (h : ReachAvoid db props1 avoid q x) : ReachAvoid db props2 avoid q x := by
  induction h with
  | base hq => exact ReachAvoid.base _ hq
  | step y x hy hx hnx ih =>
    exact ReachAvoid.step _ _ _ ih ((hsucc y x).mp hx) hnx

theorem succIds_swap_mem (db : WDB) (a b y x : String) :
    x ∈ succIds db [a, b] y ↔ x ∈ succIds db [b, a] y := by
  rw [succIds_mem, succIds_mem]
  constructor
  · intro ⟨p, hp, hx⟩
    rcases List.mem_cons.mp hp with rfl | hp2
    · exact ⟨p, by simp, hx⟩
    · rw [List.mem_singleton] at hp2
      subst hp2
      exact ⟨p, by simp, hx⟩
  · intro ⟨p, hp, hx⟩
    rcases List.mem_cons.mp hp with rfl | hp2
    · exact ⟨p, by simp, hx⟩
    · rw [List.mem_singleton] at hp2
      subst hp2
      exact ⟨p, by simp, hx⟩

theorem nodeEdges_swap_mem (db : WDB) (a b y : String) (ed : GraphEdge) :
    ed ∈ nodeEdges db [a, b] y ↔ ed ∈ nodeEdges db [b, a] y := by
  rw [nodeEdges_mem, nodeEdges_mem]
  constructor
  · intro ⟨p, hp, s, hs, he⟩
    rcases List.mem_cons.mp hp with rfl | hp2
    · exact ⟨p, by simp, s, hs, he⟩
    · rw [List.mem_singleton] at hp2
      subst hp2
      exact ⟨p, by simp, s, hs, he⟩
  · intro ⟨p, hp, s, hs, he⟩
    rcases List.mem_cons.mp hp with rfl | hp2
    · exact ⟨p, by simp, s, hs, he⟩
    · rw [List.mem_singleton] at hp2
      subst hp2
      exact ⟨p, by simp, s, hs, he⟩

theorem walkChildren_reach (db : WDB) (rels : List String)
    (next : String → List String → List GraphEdge → List (String × Bool) →
      Option (PyM WSt)) (hnext : NextOk rels next)
    (hreach : ∀ q2 v2 e2 tr2 st2, next q2 v2 e2 tr2 = some (.ok st2) →
      ∀ x ∈ st2.1, x ∈ v2 ∨ ReachAvoid db rels v2 q2 x)
    (rel qid : String) :
    ∀ (vals : List J) (v : List String) (e : List GraphEdge)
      (tr : List (String × Bool)) (st2 : WSt),
      walkChildren next rel qid vals v e tr = some (.ok st2) →
      ∀ x ∈ st2.1, x ∈ v ∨ ∃ s, s ∈ travIds vals ∧ ReachAvoid db rels v s x := by
  intro vals
  induction vals with
  | nil =>
    intro v e tr st2 h x hx
    obtain ⟨v2, e2, tr2⟩ := st2
    simp only [walkChildren, Option.some.injEq, Except.ok.injEq, Prod.mk.injEq] at h
    obtain ⟨rfl, rfl, rfl⟩ := h
    exact Or.inl hx
  | cons val rest ih =>
    intro v e tr st2 h x hx
    cases val with
    | str s =>
      by_cases hc : (pyTruthy (.str s) && pyStartsWith s "Q") = true
      · rw [walkChildren, if_pos hc] at h
        rw [travIds_cons_valid s rest hc]
        cases hn : next s v (e ++ [⟨qid, s, rel⟩]) tr with
        | none =>
          rw [hn] at h
          exact Option.noConfusion h
        | some r =>
          cases r with
          | error ex =>
            rw [hn] at h
            exact Except.noConfusion (Option.some.inj h)
          | ok st1 =>
            obtain ⟨v1, e1, tr1⟩ := st1
            rw [hn] at h
            have h2 : walkChildren next rel qid rest v1 e1 tr1 = some (.ok st2) := h
            have hsubv : v ⊆ v1 :=
              (hnext s v (e ++ [⟨qid, s, rel⟩]) tr (v1, e1, tr1) hn).1
            rcases ih v1 e1 tr1 st2 h2 x hx with hx1 | ⟨s2, hs2, hr2⟩
            · rcases hreach s v (e ++ [⟨qid, s, rel⟩]) tr (v1, e1, tr1) hn x hx1
                with hxv | hr
              · exact Or.inl hxv
              · exact Or.inr ⟨s, List.mem_cons_self _ _, hr⟩
            · exact Or.inr ⟨s2, List.mem_cons_of_mem _ hs2,
                reachAvoid_mono hr2 hsubv⟩
      · rw [walkChildren, if_neg hc] at h
        have hc2 : (pyTruthy (.str s) && pyStartsWith s "Q") = false := by
          simpa using hc
        rw [travIds_cons_invalid_str s rest hc2]
        exact ih v e tr st2 h x hx
    | null => exact ih v e tr st2 h x hx
    | bool b => exact ih v e tr st2 h x hx
    | num m => exact ih v e tr st2 h x hx
    | arr xs => exact ih v e tr st2 h x hx
    | obj fs => exact ih v e tr st2 h x hx

theorem walkProps_reach (db : WDB) (rels : List String)
    (next : String → List String → List GraphEdge → List (String × Bool) →
      Option (PyM WSt)) (hnext : NextOk rels next)
    (hreach : ∀ q2 v2 e2 tr2 st2, next q2 v2 e2 tr2 = some (.ok st2) →
      ∀ x ∈ st2.1, x ∈ v2 ∨ ReachAvoid db rels v2 q2 x)
    (qid : String) (pm : J) :
    ∀ (props2 : List String) (v : List String) (e : List GraphEdge)
      (tr : List (String × Bool)) (st2 : WSt), (∀ p ∈ props2, p ∈ rels) →
      qid ∈ v → (qid, true) ∈ tr →
      walkProps next qid pm props2 v e tr = some (.ok st2) →
      ∀ x ∈ st2.1, x ∈ v ∨ ∃ pname ∈ props2, ∃ vals,
        pmVals pm pname = .ok vals ∧
        ∃ s ∈ travIds vals, ReachAvoid db rels v s x := by
  intro props2
  induction props2 with
  | nil =>
    intro v e tr st2 _ _ _ h x hx
    obtain ⟨v2, e2, tr2⟩ := st2
    simp only [walkProps, Option.some.injEq, Except.ok.injEq, Prod.mk.injEq] at h
    obtain ⟨rfl, rfl, rfl⟩ := h
    exact Or.inl hx
  | cons pname rest ih =>
    intro v e tr st2 hsub hq htr h x hx
    rw [walkProps] at h
    split at h
    · exact Except.noConfusion (Option.some.inj h)
    · rename_i vals hpv
      split at h
      · exact Option.noConfusion h
      · exact Except.noConfusion (Option.some.inj h)
      · rename_i v1 e1 tr1 hwc
        have h2 : walkProps next qid pm rest v1 e1 tr1 = some (.ok st2) := h
        have s1 : StepOk rels (v, e, tr) (v1, e1, tr1) :=
          walkChildren_stepOk rels next hnext pname qid
            (hsub pname (List.mem_cons_self _ _)) vals v e tr (v1, e1, tr1)
            hq htr hwc
        have hq1 : qid ∈ v1 := s1.1 hq
        have htr1 : (qid, true) ∈ tr1 := by
          obtain ⟨d, hd, _, _⟩ := s1.2.1
          have hd2 : tr1 = tr ++ d := hd
          rw [hd2]
          exact List.mem_append_left _ htr
        rcases ih v1 e1 tr1 st2 (fun p hp => hsub p (List.mem_cons_of_mem _ hp))
            hq1 htr1 h2 x hx with hx1 | ⟨p2, hp2, vals2, hpv2, s2, hs2, hr2⟩
        · rcases walkChildren_reach db rels next hnext hreach pname qid vals
              v e tr (v1, e1, tr1) hwc x hx1 with hxv | ⟨s2, hs2, hr2⟩
          · exact Or.inl hxv
          · exact Or.inr ⟨pname, List.mem_cons_self _ _, vals, hpv, s2, hs2, hr2⟩
        · exact Or.inr ⟨p2, List.mem_cons_of_mem _ hp2, vals2, hpv2, s2, hs2,
            reachAvoid_mono hr2 s1.1⟩

theorem walkF_reach (db : WDB) (props : List String) :
    ∀ (n : Nat) (q : String) (v : List String) (e : List GraphEdge)
      (tr : List (String × Bool)) (st2 : WSt),
      walkF db props n q v e tr = some (.ok st2) →
      ∀ x ∈ st2.1, x ∈ v ∨ ReachAvoid db props v q x := by
  intro n
  induction n with
  | zero =>
    intro q v e tr st2 h
    exact Option.noConfusion h
  | succ n ih =>
    intro q v e tr st2 h x hx
    obtain ⟨v2, e2, tr2⟩ := st2
    rw [walkF] at h
    by_cases hv : q ∈ v
    · rw [if_pos hv] at h
      simp only [Option.some.injEq, Except.ok.injEq, Prod.mk.injEq] at h
      obtain ⟨rfl, rfl, rfl⟩ := h
      exact Or.inl hx
    · rw [if_neg hv] at h
      split at h
      · simp only [Option.some.injEq, Except.ok.injEq, Prod.mk.injEq] at h
        obtain ⟨rfl, rfl, rfl⟩ := h
        rcases List.mem_cons.mp hx with rfl | hx2
        · exact Or.inr (ReachAvoid.base _ hv)
        · exact Or.inl hx2
      · rename_i ent hf
        split at h
        · rename_i htru2
          split at h
          · exact Except.noConfusion (Option.some.inj h)
          · rename_i pm hp
            have h2 : walkProps (fun q2 vv ee tt => walkF db props n q2 vv ee tt)
                q pm props (q :: v) e (tr ++ [(q, true)]) =
                some (.ok (v2, e2, tr2)) := h
            have hnext : NextOk props
                (fun q2 vv ee tt => walkF db props n q2 vv ee tt) :=
              fun q2 vv ee tt st hcall => walkF_stepOk db props n q2 vv ee tt st hcall
            have hreach : ∀ q2 vv ee tt st2,
                (fun q3 v3 e3 t3 => walkF db props n q3 v3 e3 t3) q2 vv ee tt =
                  some (.ok st2) →
                ∀ x2 ∈ st2.1, x2 ∈ vv ∨ ReachAvoid db props vv q2 x2 :=
              fun q2 vv ee tt st hcall => ih q2 vv ee tt st hcall
            rcases walkProps_reach db props _ hnext hreach q pm props (q :: v) e
                (tr ++ [(q, true)]) (v2, e2, tr2) (fun p hp2 => hp2)
                (List.mem_cons_self _ _)
                (List.mem_append_right _ (List.mem_singleton.mpr rfl)) h2 x hx
              with hx1 | ⟨pname, hpn, vals, hpv, s, hs, hr⟩
            · rcases List.mem_cons.mp hx1 with rfl | hx2
              · exact Or.inr (ReachAvoid.base _ hv)
              · exact Or.inl hx2
            · have hnv : nodeVals db pname q = vals :=
                nodeVals_run db pname q ent pm vals hf htru2 hp hpv
              have hsucc : s ∈ succIds db props q :=
                (succIds_mem db props q s).mpr ⟨pname, hpn, by rw [hnv]; exact hs⟩
              have hsnv : s ∉ q :: v := reachAvoid_src_not_mem hr
              have hs_not_v : s ∉ v := fun hmem => hsnv (List.mem_cons_of_mem _ hmem)
              have hqs : ReachAvoid db props v q s :=
                ReachAvoid.step _ _ _ (ReachAvoid.base _ hv) hsucc hs_not_v
              have hsx : ReachAvoid db props v s x :=
                reachAvoid_mono hr (fun a ha => List.mem_cons_of_mem _ ha)
              exact Or.inr (reachAvoid_trans hsx q hqs)
        · simp only [Option.some.injEq, Except.ok.injEq, Prod.mk.injEq] at h
          obtain ⟨rfl, rfl, rfl⟩ := h
          rcases List.mem_cons.mp hx with rfl | hx2
          · exact Or.inr (ReachAvoid.base _ hv)
          · exact Or.inl hx2

theorem walkChildren_child_visited (db : WDB) (rels : List String)
    (next : String → List String → List GraphEdge → List (String × Bool) →
      Option (PyM WSt)) (hnext : NextOk rels next)
    (hself : ∀ q2 v2 e2 tr2 st2, next q2 v2 e2 tr2 = some (.ok st2) → q2 ∈ st2.1)
    (rel qid : String) (hrel : rel ∈ rels) :
    ∀ (vals : List J) (v : List String) (e : List GraphEdge)
      (tr : List (String × Bool)) (st2 : WSt), qid ∈ v → (qid, true) ∈ tr →
      walkChildren next rel qid vals v e tr = some (.ok st2) →
      ∀ s ∈ travIds vals, s ∈ st2.1 := by
  intro vals
  induction vals with
  | nil =>
    intro v e tr st2 _ _ _ s hs
    exact absurd hs (List.not_mem_nil s)
  | cons val rest ih =>
    intro v e tr st2 hq htr h s hs
    cases val with
    | str s0 =>
      by_cases hc : (pyTruthy (.str s0) && pyStartsWith s0 "Q") = true
      · rw [walkChildren, if_pos hc] at h
        rw [travIds_cons_valid s0 rest hc] at hs
        cases hn : next s0 v (e ++ [⟨qid, s0, rel⟩]) tr with
        | none =>
          rw [hn] at h
          exact Option.noConfusion h
        | some r =>
          cases r with
          | error ex =>
            rw [hn] at h
            exact Except.noConfusion (Option.some.inj h)
          | ok st1 =>
            obtain ⟨v1, e1, tr1⟩ := st1
            rw [hn] at h
            have h2 : walkChildren next rel qid rest v1 e1 tr1 = some (.ok st2) := h
            have s1 : StepOk rels (v, e ++ [⟨qid, s0, rel⟩], tr) (v1, e1, tr1) :=
              hnext s0 v (e ++ [⟨qid, s0, rel⟩]) tr (v1, e1, tr1) hn
            have hq1 : qid ∈ v1 := s1.1 hq
            have htr1 : (qid, true) ∈ tr1 := by
              obtain ⟨d, hd, _, _⟩ := s1.2.1
              have hd2 : tr1 = tr ++ d := hd
              rw [hd2]
              exact List.mem_append_left _ htr
            rcases List.mem_cons.mp hs with rfl | hs2
            · have hs1 : s ∈ v1 :=
                hself s v (e ++ [⟨qid, s, rel⟩]) tr (v1, e1, tr1) hn
              exact (walkChildren_stepOk rels next hnext rel qid hrel rest
                v1 e1 tr1 st2 hq1 htr1 h2).1 hs1
            · exact ih v1 e1 tr1 st2 hq1 htr1 h2 s hs2
      · rw [walkChildren, if_neg hc] at h
        have hc2 : (pyTruthy (.str s0) && pyStartsWith s0 "Q") = false := by
          simpa using hc
        rw [travIds_cons_invalid_str s0 rest hc2] at hs
        exact ih v e tr st2 hq htr h s hs
    | null => exact ih v e tr st2 hq htr h s hs
    | bool b => exact ih v e tr st2 hq htr h s hs
    | num m => exact ih v e tr st2 hq htr h s hs
    | arr xs => exact ih v e tr st2 hq htr h s hs
    | obj fs => exact ih v e tr st2 hq htr h s hs

theorem walkProps_child_visited (db : WDB) (rels : List String)
    (next : String → List String → List GraphEdge → List (String × Bool) →
      Option (PyM WSt)) (hnext : NextOk rels next)
    (hself : ∀ q2 v2 e2 tr2 st2, next q2 v2 e2 tr2 = some (.ok st2) → q2 ∈ st2.1)
    (qid : String) (pm : J) :
    ∀ (props2 : List String) (v : List String) (e : List GraphEdge)
      (tr : List (String × Bool)) (st2 : WSt), (∀ p ∈ props2, p ∈ rels) →
      qid ∈ v → (qid, true) ∈ tr →
      walkProps next qid pm props2 v e tr = some (.ok st2) →
      ∀ pname ∈ props2, ∀ vals, pmVals pm pname = .ok vals →
        ∀ s ∈ travIds vals, s ∈ st2.1 := by
  intro props2
  induction props2 with
  | nil =>
    intro v e tr st2 _ _ _ _ pname hpn
    exact absurd hpn (List.not_mem_nil pname)
  | cons pname0 rest ih =>
    intro v e tr st2 hsub hq htr h pname hpn vals hpv s hs
    rw [walkProps] at h
    split at h
    · exact Except.noConfusion (Option.some.inj h)
    · rename_i vals0 hpv0
      split at h
      · exact Option.noConfusion h
      · exact Except.noConfusion (Option.some.inj h)
      · rename_i v1 e1 tr1 hwc
        have h2 : walkProps next qid pm rest v1 e1 tr1 = some (.ok st2) := h
        have s1 : StepOk rels (v, e, tr) (v1, e1, tr1) :=
          walkChildren_stepOk rels next hnext pname0 qid
            (hsub pname0 (List.mem_cons_self _ _)) vals0 v e tr (v1, e1, tr1)
            hq htr hwc
        have hq1 : qid ∈ v1 := s1.1 hq
        have htr1 : (qid, true) ∈ tr1 := by
          obtain ⟨d, hd, _, _⟩ := s1.2.1
          have hd2 : tr1 = tr ++ d := hd
          rw [hd2]
          exact List.mem_append_left _ htr
        rcases List.mem_cons.mp hpn with rfl | hpn2
        · have hveq : vals0 = vals := Except.ok.inj (hpv0.symm.trans hpv)
          subst hveq
          have hs1 : s ∈ v1 :=
            walkChildren_child_visited db rels next hnext hself pname qid
              (hsub pname (List.mem_cons_self _ _)) vals0 v e tr (v1, e1, tr1)
              hq htr hwc s hs
          exact (walkProps_stepOk rels next hnext qid pm rest v1 e1 tr1 st2
            (fun p hp => hsub p (List.mem_cons_of_mem _ hp)) hq1 htr1 h2).1 hs1
        · exact ih v1 e1 tr1 st2 (fun p hp => hsub p (List.mem_cons_of_mem _ hp))
            hq1 htr1 h2 pname hpn2 vals hpv s hs

theorem walkChildren_closed (db : WDB) (rels : List String)
    (next : String → List String → List GraphEdge → List (String × Bool) →
      Option (PyM WSt)) (hnext : NextOk rels next)
    (hclosed : ∀ q2 v2 e2 tr2 st2, next q2 v2 e2 tr2 = some (.ok st2) →
      ∀ y, y ∈ st2.1 → y ∉ v2 → ∀ x ∈ succIds db rels y, x ∈ st2.1)
    (rel qid : String) (hrel : rel ∈ rels) :
    ∀ (vals : List J) (v : List String) (e : List GraphEdge)
      (tr : List (String × Bool)) (st2 : WSt), qid ∈ v → (qid, true) ∈ tr →
      walkChildren next rel qid vals v e tr = some (.ok st2) →
      ∀ y, y ∈ st2.1 → y ∉ v → ∀ x ∈ succIds db rels y, x ∈ st2.1 := by
  intro vals
  induction vals with
  | nil =>
    intro v e tr st2 _ _ h y hy hyv x _
    obtain ⟨v2, e2, tr2⟩ := st2
    simp only [walkChildren, Option.some.injEq, Except.ok.injEq, Prod.mk.injEq] at h
    obtain ⟨rfl, rfl, rfl⟩ := h
    exact absurd hy hyv
  | cons val rest ih =>
    intro v e tr st2 hq htr h y hy hyv x hx
    cases val with
    | str s0 =>
      by_cases hc : (pyTruthy (.str s0) && pyStartsWith s0 "Q") = true
      · rw [walkChildren, if_pos hc] at h
        cases hn : next s0 v (e ++ [⟨qid, s0, rel⟩]) tr with
        | none =>
          rw [hn] at h
          exact Option.noConfusion h
        | some r =>
          cases r with
          | error ex =>
            rw [hn] at h
            exact Except.noConfusion (Option.some.inj h)
          | ok st1 =>
            obtain ⟨v1, e1, tr1⟩ := st1
            rw [hn] at h
            have h2 : walkChildren next rel qid rest v1 e1 tr1 = some (.ok st2) := h
            have s1 : StepOk rels (v, e ++ [⟨qid, s0, rel⟩], tr) (v1, e1, tr1) :=
              hnext s0 v (e ++ [⟨qid, s0, rel⟩]) tr (v1, e1, tr1) hn
            have hq1 : qid ∈ v1 := s1.1 hq
            have htr1 : (qid, true) ∈ tr1 := by
              obtain ⟨d, hd, _, _⟩ := s1.2.1
              have hd2 : tr1 = tr ++ d := hd
              rw [hd2]
              exact List.mem_append_left _ htr
            by_cases hy1 : y ∈ v1
            · have hxin : x ∈ v1 :=
                hclosed s0 v (e ++ [⟨qid, s0, rel⟩]) tr (v1, e1, tr1) hn
                  y hy1 hyv x hx
              exact (walkChildren_stepOk rels next hnext rel qid hrel rest
                v1 e1 tr1 st2 hq1 htr1 h2).1 hxin
            · exact ih v1 e1 tr1 st2 hq1 htr1 h2 y hy hy1 x hx
      · rw [walkChildren, if_neg hc] at h
        exact ih v e tr st2 hq htr h y hy hyv x hx
    | null => exact ih v e tr st2 hq htr h y hy hyv x hx
    | bool b => exact ih v e tr st2 hq htr h y hy hyv x hx
    | num m => exact ih v e tr st2 hq htr h y hy hyv x hx
    | arr xs => exact ih v e tr st2 hq htr h y hy hyv x hx
    | obj fs => exact ih v e tr st2 hq htr h y hy hyv x hx

theorem walkProps_closed (db : WDB) (rels : List String)
    (next : String → List String → List GraphEdge → List (String × Bool) →
      Option (PyM WSt)) (hnext : NextOk rels next)
    (hclosed : ∀ q2 v2 e2 tr2 st2, next q2 v2 e2 tr2 = some (.ok st2) →
      ∀ y, y ∈ st2.1 → y ∉ v2 → ∀ x ∈ succIds db rels y, x ∈ st2.1)
    (qid : String) (pm : J) :
    ∀ (props2 : List String) (v : List String) (e : List GraphEdge)
      (tr : List (String × Bool)) (st2 : WSt), (∀ p ∈ props2, p ∈ rels) →
      qid ∈ v → (qid, true) ∈ tr →
      walkProps next qid pm props2 v e tr = some (.ok st2) →
      ∀ y, y ∈ st2.1 → y ∉ v → ∀ x ∈ succIds db rels y, x ∈ st2.1 := by
  intro props2
  induction props2 with
  | nil =>
    intro v e tr st2 _ _ _ h y hy hyv x _
    obtain ⟨v2, e2, tr2⟩ := st2
    simp only [walkProps, Option.some.injEq, Except.ok.injEq, Prod.mk.injEq] at h
    obtain ⟨rfl, rfl, rfl⟩ := h
    exact absurd hy hyv
  | cons pname0 rest ih =>
    intro v e tr st2 hsub hq htr h y hy hyv x hx
    rw [walkProps] at h
    split at h
    · exact Except.noConfusion (Option.some.inj h)
    · rename_i vals0 hpv0
      split at h
      · exact Option.noConfusion h
      · exact Except.noConfusion (Option.some.inj h)
      · rename_i v1 e1 tr1 hwc
        have h2 : walkProps next qid pm rest v1 e1 tr1 = some (.ok st2) := h
        have s1 : StepOk rels (v, e, tr) (v1, e1, tr1) :=
          walkChildren_stepOk rels next hnext pname0 qid
            (hsub pname0 (List.mem_cons_self _ _)) vals0 v e tr (v1, e1, tr1)
            hq htr hwc
        have hq1 : qid ∈ v1 := s1.1 hq
        have htr1 : (qid, true) ∈ tr1 := by
          obtain ⟨d, hd, _, _⟩ := s1.2.1
          have hd2 : tr1 = tr ++ d := hd
          rw [hd2]
          exact List.mem_append_left _ htr
        by_cases hy1 : y ∈ v1
        · have hxin : x ∈ v1 :=
            walkChildren_closed db rels next hnext hclosed pname0 qid
              (hsub pname0 (List.mem_cons_self _ _)) vals0 v e tr (v1, e1, tr1)
              hq htr hwc y hy1 hyv x hx
          exact (walkProps_stepOk rels next hnext qid pm rest v1 e1 tr1 st2
            (fun p hp => hsub p (List.mem_cons_of_mem _ hp)) hq1 htr1 h2).1 hxin
        · exact ih v1 e1 tr1 st2 (fun p hp => hsub p (List.mem_cons_of_mem _ hp))
            hq1 htr1 h2 y hy hy1 x hx

theorem walkF_closed (db : WDB) (props : List String) :
    ∀ (n : Nat) (q : String) (v : List String) (e : List GraphEdge)
      (tr : List (String × Bool)) (st2 : WSt),
      walkF db props n q v e tr = some (.ok st2) →
      ∀ y, y ∈ st2.1 → y ∉ v → ∀ x ∈ succIds db props y, x ∈ st2.1 := by
  intro n
  induction n with
  | zero =>
    intro q v e tr st2 h
    exact Option.noConfusion h
  | succ n ih =>
    intro q v e tr st2 h y hy hyv x hx
    obtain ⟨v2, e2, tr2⟩ := st2
    rw [walkF] at h
    by_cases hv : q ∈ v
    · rw [if_pos hv] at h
      simp only [Option.some.injEq, Except.ok.injEq, Prod.mk.injEq] at h
      obtain ⟨rfl, rfl, rfl⟩ := h
      exact absurd hy hyv
    · rw [if_neg hv] at h
      split at h
      · rename_i hf
        simp only [Option.some.injEq, Except.ok.injEq, Prod.mk.injEq] at h
        obtain ⟨rfl, rfl, rfl⟩ := h
        rcases List.mem_cons.mp hy with rfl | hy2
        · obtain ⟨p, _, hxm⟩ := (succIds_mem db props y x).mp hx
          rw [nodeVals_none db p y hf] at hxm
          exact absurd hxm (List.not_mem_nil x)
        · exact absurd hy2 hyv
      · rename_i ent hf
        split at h
        · rename_i htru
          split at h
          · exact Except.noConfusion (Option.some.inj h)
          · rename_i pm hp
            have h2 : walkProps (fun q2 vv ee tt => walkF db props n q2 vv ee tt)
                q pm props (q :: v) e (tr ++ [(q, true)]) =
                some (.ok (v2, e2, tr2)) := h
            have hnext : NextOk props
                (fun q2 vv ee tt => walkF db props n q2 vv ee tt) :=
              fun q2 vv ee tt st hcall => walkF_stepOk db props n q2 vv ee tt st hcall
            have hself : ∀ q2 vv ee tt st,
                (fun q3 v3 e3 t3 => walkF db props n q3 v3 e3 t3) q2 vv ee tt =
                  some (.ok st) → q2 ∈ st.1 :=
              fun q2 vv ee tt st hcall =>
                walkF_self_mem db props n q2 vv ee tt st hcall
            have hclosed : ∀ q2 vv ee tt st,
                (fun q3 v3 e3 t3 => walkF db props n q3 v3 e3 t3) q2 vv ee tt =
                  some (.ok st) →
                ∀ y2, y2 ∈ st.1 → y2 ∉ vv → ∀ x2 ∈ succIds db props y2, x2 ∈ st.1 :=
              fun q2 vv ee tt st hcall => ih q2 vv ee tt st hcall
            by_cases hyq : y = q
            · subst hyq
              obtain ⟨pname, hpn, hxm⟩ := (succIds_mem db props y x).mp hx
              cases hpv : pmVals pm pname with
              | error ex =>
                rw [nodeVals_run_error db pname y ent pm ex hf htru hp hpv] at hxm
                exact absurd hxm (List.not_mem_nil x)
              | ok vals =>
                rw [nodeVals_run db pname y ent pm vals hf htru hp hpv] at hxm
                exact walkProps_child_visited db props _ hnext hself y pm props
                  (y :: v) e (tr ++ [(y, true)]) (v2, e2, tr2) (fun p hp2 => hp2)
                  (List.mem_cons_self _ _)
                  (List.mem_append_right _ (List.mem_singleton.mpr rfl)) h2
                  pname hpn vals hpv x hxm
            · have hy2 : y ∉ q :: v := by
                intro hmem
                rcases List.mem_cons.mp hmem with h3 | h3
                · exact hyq h3
                · exact hyv h3
              exact walkProps_closed db props _ hnext hclosed q pm props
                (q :: v) e (tr ++ [(q, true)]) (v2, e2, tr2) (fun p hp2 => hp2)
                (List.mem_cons_self _ _)
                (List.mem_append_right _ (List.mem_singleton.mpr rfl)) h2
                y hy hy2 x hx
        · rename_i htru
          simp only [Option.some.injEq, Except.ok.injEq, Prod.mk.injEq] at h
          obtain ⟨rfl, rfl, rfl⟩ := h
          rcases List.mem_cons.mp hy with rfl | hy2
          · obtain ⟨p, _, hxm⟩ := (succIds_mem db props y x).mp hx
            have htru2 : pyTruthy ent = false := by simpa using htru
            rw [nodeVals_falsy db p y ent hf htru2] at hxm
            exact absurd hxm (List.not_mem_nil x)
          · exact absurd hy2 hyv

theorem walkF_reach_complete (db : WDB) (props : List String) (n : Nat)
    (q : String) (v : List String) (e : List GraphEdge)
    (tr : List (String × Bool)) (st2 : WSt)
    (h : walkF db props n q v e tr = some (.ok st2)) :
    ∀ x, ReachAvoid db props v q x → x ∈ st2.1 := by
  intro x hr
  induction hr with
  | base hq => exact walkF_self_mem db props n q v e tr st2 h
  | step y x2 hy hx hnx ih =>
    exact walkF_closed db props n q v e tr st2 h y ih
      (reachAvoid_dst_not_mem hy) x2 hx

theorem walkChildren_edge_emitted (db : WDB) (rels : List String)
    (next : String → List String → List GraphEdge → List (String × Bool) →
      Option (PyM WSt)) (hnext : NextOk rels next)
    (rel qid : String) (hrel : rel ∈ rels) :
    ∀ (vals : List J) (v : List String) (e : List GraphEdge)
      (tr : List (String × Bool)) (st2 : WSt), qid ∈ v → (qid, true) ∈ tr →
      walkChildren next rel qid vals v e tr = some (.ok st2) →
      ∀ s ∈ travIds vals, (⟨qid, s, rel⟩ : GraphEdge) ∈ st2.2.1 := by
  intro vals
  induction vals with
  | nil =>
    intro v e tr st2 _ _ _ s hs
    exact absurd hs (List.not_mem_nil s)
  | cons val rest ih =>
    intro v e tr st2 hq htr h s hs
    cases val with
    | str s0 =>
      by_cases hc : (pyTruthy (.str s0) && pyStartsWith s0 "Q") = true
      · rw [walkChildren, if_pos hc] at h
        rw [travIds_cons_valid s0 rest hc] at hs
        cases hn : next s0 v (e ++ [⟨qid, s0, rel⟩]) tr with
        | none =>
          rw [hn] at h
          exact Option.noConfusion h
        | some r =>
          cases r with
          | error ex =>
            rw [hn] at h
            exact Except.noConfusion (Option.some.inj h)
          | ok st1 =>
            obtain ⟨v1, e1, tr1⟩ := st1
            rw [hn] at h
            have h2 : walkChildren next rel qid rest v1 e1 tr1 = some (.ok st2) := h
            have s1 : StepOk rels (v, e ++ [⟨qid, s0, rel⟩], tr) (v1, e1, tr1) :=
              hnext s0 v (e ++ [⟨qid, s0, rel⟩]) tr (v1, e1, tr1) hn
            have hq1 : qid ∈ v1 := s1.1 hq
            have htr1 : (qid, true) ∈ tr1 := by
              obtain ⟨d, hd, _, _⟩ := s1.2.1
              have hd2 : tr1 = tr ++ d := hd
              rw [hd2]
              exact List.mem_append_left _ htr
            have s2 : StepOk rels (v1, e1, tr1) st2 :=
              walkChildren_stepOk rels next hnext rel qid hrel rest
                v1 e1 tr1 st2 hq1 htr1 h2
            obtain ⟨de2, hde2, _⟩ := s2.2.2
            have hde3 : st2.2.1 = e1 ++ de2 := hde2
            rcases List.mem_cons.mp hs with rfl | hs2
            · have he1 : (⟨qid, s, rel⟩ : GraphEdge) ∈ e1 := by
                obtain ⟨de, hde, _⟩ := s1.2.2
                have hde4 : e1 = (e ++ [⟨qid, s, rel⟩]) ++ de := hde
                rw [hde4]
                exact List.mem_append_left _
                  (List.mem_append_right _ (List.mem_singleton.mpr rfl))
              rw [hde3]
              exact List.mem_append_left _ he1
            · exact ih v1 e1 tr1 st2 hq1 htr1 h2 s hs2
      · rw [walkChildren, if_neg hc] at h
        have hc2 : (pyTruthy (.str s0) && pyStartsWith s0 "Q") = false := by
          simpa using hc
        rw [travIds_cons_invalid_str s0 rest hc2] at hs
        exact ih v e tr st2 hq htr h s hs
    | null => exact ih v e tr st2 hq htr h s hs
    | bool b => exact ih v e tr st2 hq htr h s hs
    | num m => exact ih v e tr st2 hq htr h s hs
    | arr xs => exact ih v e tr st2 hq htr h s hs
    | obj fs => exact ih v e tr st2 hq htr h s hs

theorem walkProps_edge_emitted (db : WDB) (rels : List String)
    (next : String → List String → List GraphEdge → List (String × Bool) →
      Option (PyM WSt)) (hnext : NextOk rels next) (qid : String) (pm : J) :
    ∀ (props2 : List String) (v : List String) (e : List GraphEdge)
      (tr : List (String × Bool)) (st2 : WSt), (∀ p ∈ props2, p ∈ rels) →
      qid ∈ v → (qid, true) ∈ tr →
      walkProps next qid pm props2 v e tr = some (.ok st2) →
      ∀ pname ∈ props2, ∀ vals, pmVals pm pname = .ok vals →
        ∀ s ∈ travIds vals, (⟨qid, s, pname⟩ : GraphEdge) ∈ st2.2.1 := by
  intro props2
  induction props2 with
  | nil =>
    intro v e tr st2 _ _ _ _ pname hpn
    exact absurd hpn (List.not_mem_nil pname)
  | cons pname0 rest ih =>
    intro v e tr st2 hsub hq htr h pname hpn vals hpv s hs
    rw [walkProps] at h
    split at h
    · exact Except.noConfusion (Option.some.inj h)
    · rename_i vals0 hpv0
      split at h
      · exact Option.noConfusion h
      · exact Except.noConfusion (Option.some.inj h)
      · rename_i v1 e1 tr1 hwc
        have h2 : walkProps next qid pm rest v1 e1 tr1 = some (.ok st2) := h
        have s1 : StepOk rels (v, e, tr) (v1, e1, tr1) :=
          walkChildren_stepOk rels next hnext pname0 qid
            (hsub pname0 (List.mem_cons_self _ _)) vals0 v e tr (v1, e1, tr1)
            hq htr hwc
        have hq1 : qid ∈ v1 := s1.1 hq
        have htr1 : (qid, true) ∈ tr1 := by
          obtain ⟨d, hd, _, _⟩ := s1.2.1
          have hd2 : tr1 = tr ++ d := hd
          rw [hd2]
          exact List.mem_append_left _ htr
        rcases List.mem_cons.mp hpn with rfl | hpn2
        · have hveq : vals0 = vals := Except.ok.inj (hpv0.symm.trans hpv)
          subst hveq
          have he1 : (⟨qid, s, pname⟩ : GraphEdge) ∈ e1 :=
            walkChildren_edge_emitted db rels next hnext pname qid
              (hsub pname (List.mem_cons_self _ _)) vals0 v e tr (v1, e1, tr1)
              hq htr hwc s hs
          have s2 : StepOk rels (v1, e1, tr1) st2 :=
            walkProps_stepOk rels next hnext qid pm rest v1 e1 tr1 st2
              (fun p hp => hsub p (List.mem_cons_of_mem _ hp)) hq1 htr1 h2
          obtain ⟨de2, hde2, _⟩ := s2.2.2
          have hde3 : st2.2.1 = e1 ++ de2 := hde2
          rw [hde3]
          exact List.mem_append_left _ he1
        · exact ih v1 e1 tr1 st2 (fun p hp => hsub p (List.mem_cons_of_mem _ hp))
            hq1 htr1 h2 pname hpn2 vals hpv s hs

theorem walkChildren_edges_closed (db : WDB) (rels : List String)
    (next : String → List String → List GraphEdge → List (String × Bool) →
      Option (PyM WSt)) (hnext : NextOk rels next)
    (hedge : ∀ q2 v2 e2 tr2 st2, next q2 v2 e2 tr2 = some (.ok st2) →
      ∀ y, y ∈ st2.1 → y ∉ v2 → ∀ ed ∈ nodeEdges db rels y, ed ∈ st2.2.1)
    (rel qid : String) (hrel : rel ∈ rels) :
    ∀ (vals : List J) (v : List String) (e : List GraphEdge)
      (tr : List (String × Bool)) (st2 : WSt), qid ∈ v → (qid, true) ∈ tr →
      walkChildren next rel qid vals v e tr = some (.ok st2) →
      ∀ y, y ∈ st2.1 → y ∉ v → ∀ ed ∈ nodeEdges db rels y, ed ∈ st2.2.1 := by
  intro vals
  induction vals with
  | nil =>
    intro v e tr st2 _ _ h y hy hyv ed _
    obtain ⟨v2, e2, tr2⟩ := st2
    simp only [walkChildren, Option.some.injEq, Except.ok.injEq, Prod.mk.injEq] at h
    obtain ⟨rfl, rfl, rfl⟩ := h
    exact absurd hy hyv
  | cons val rest ih =>
    intro v e tr st2 hq htr h y hy hyv ed hed
    cases val with
    | str s0 =>
      by_cases hc : (pyTruthy (.str s0) && pyStartsWith s0 "Q") = true
      · rw [walkChildren, if_pos hc] at h
        cases hn : next s0 v (e ++ [⟨qid, s0, rel⟩]) tr with
        | none =>
          rw [hn] at h
          exact Option.noConfusion h
        | some r =>
          cases r with
          | error ex =>
            rw [hn] at h
            exact Except.noConfusion (Option.some.inj h)
          | ok st1 =>
            obtain ⟨v1, e1, tr1⟩ := st1
            rw [hn] at h
            have h2 : walkChildren next rel qid rest v1 e1 tr1 = some (.ok st2) := h
            have s1 : StepOk rels (v, e ++ [⟨qid, s0, rel⟩], tr) (v1, e1, tr1) :=
              hnext s0 v (e ++ [⟨qid, s0, rel⟩]) tr (v1, e1, tr1) hn
            have hq1 : qid ∈ v1 := s1.1 hq
            have htr1 : (qid, true) ∈ tr1 := by
              obtain ⟨d, hd, _, _⟩ := s1.2.1
              have hd2 : tr1 = tr ++ d := hd
              rw [hd2]
              exact List.mem_append_left _ htr
            by_cases hy1 : y ∈ v1
            · have hin : ed ∈ e1 :=
                hedge s0 v (e ++ [⟨qid, s0, rel⟩]) tr (v1, e1, tr1) hn
                  y hy1 hyv ed hed
              have s2 : StepOk rels (v1, e1, tr1) st2 :=
                walkChildren_stepOk rels next hnext rel qid hrel rest
                  v1 e1 tr1 st2 hq1 htr1 h2
              obtain ⟨de2, hde2, _⟩ := s2.2.2
              have hde3 : st2.2.1 = e1 ++ de2 := hde2
              rw [hde3]
              exact List.mem_append_left _ hin
            · exact ih v1 e1 tr1 st2 hq1 htr1 h2 y hy hy1 ed hed
      · rw [walkChildren, if_neg hc] at h
        exact ih v e tr st2 hq htr h y hy hyv ed hed
    | null => exact ih v e tr st2 hq htr h y hy hyv ed hed
    | bool b => exact ih v e tr st2 hq htr h y hy hyv ed hed
    | num m => exact ih v e tr st2 hq htr h y hy hyv ed hed
    | arr xs => exact ih v e tr st2 hq htr h y hy hyv ed hed
    | obj fs => exact ih v e tr st2 hq htr h y hy hyv ed hed

theorem walkProps_edges_closed (db : WDB) (rels : List String)
    (next : String → List String → List GraphEdge → List (String × Bool) →
      Option (PyM WSt)) (hnext : NextOk rels next)
    (hedge : ∀ q2 v2 e2 tr2 st2, next q2 v2 e2 tr2 = some (.ok st2) →
      ∀ y, y ∈ st2.1 → y ∉ v2 → ∀ ed ∈ nodeEdges db rels y, ed ∈ st2.2.1)
    (qid : String) (pm : J) :
    ∀ (props2 : List String) (v : List String) (e : List GraphEdge)
      (tr : List (String × Bool)) (st2 : WSt), (∀ p ∈ props2, p ∈ rels) →
      qid ∈ v → (qid, true) ∈ tr →
      walkProps next qid pm props2 v e tr = some (.ok st2) →
      ∀ y, y ∈ st2.1 → y ∉ v → ∀ ed ∈ nodeEdges db rels y, ed ∈ st2.2.1 := by
  intro props2
  induction props2 with
  | nil =>
    intro v e tr st2 _ _ _ h y hy hyv ed _
    obtain ⟨v2, e2, tr2⟩ := st2
    simp only [walkProps, Option.some.injEq, Except.ok.injEq, Prod.mk.injEq] at h
    obtain ⟨rfl, rfl, rfl⟩ := h
    exact absurd hy hyv
  | cons pname0 rest ih =>
    intro v e tr st2 hsub hq htr h y hy hyv ed hed
    rw [walkProps] at h
    split at h
    · exact Except.noConfusion (Option.some.inj h)
    · rename_i vals0 hpv0
      split at h
      · exact Option.noConfusion h
      · exact Except.noConfusion (Option.some.inj h)
      · rename_i v1 e1 tr1 hwc
        have h2 : walkProps next qid pm rest v1 e1 tr1 = some (.ok st2) := h
        have s1 : StepOk rels (v, e, tr) (v1, e1, tr1) :=
          walkChildren_stepOk rels next hnext pname0 qid
            (hsub pname0 (List.mem_cons_self _ _)) vals0 v e tr (v1, e1, tr1)
            hq htr hwc
        have hq1 : qid ∈ v1 := s1.1 hq
        have htr1 : (qid, true) ∈ tr1 := by
          obtain ⟨d, hd, _, _⟩ := s1.2.1
          have hd2 : tr1 = tr ++ d := hd
          rw [hd2]
          exact List.mem_append_left _ htr
        by_cases hy1 : y ∈ v1
        · have hin : ed ∈ e1 :=
            walkChildren_edges_closed db rels next hnext hedge pname0 qid
              (hsub pname0 (List.mem_cons_self _ _)) vals0 v e tr (v1, e1, tr1)
              hq htr hwc y hy1 hyv ed hed
          have s2 : StepOk rels (v1, e1, tr1) st2 :=
            walkProps_stepOk rels next hnext qid pm rest v1 e1 tr1 st2
              (fun p hp => hsub p (List.mem_cons_of_mem _ hp)) hq1 htr1 h2
          obtain ⟨de2, hde2, _⟩ := s2.2.2
          have hde3 : st2.2.1 = e1 ++ de2 := hde2
          rw [hde3]
          exact List.mem_append_left _ hin
        · exact ih v1 e1 tr1 st2 (fun p hp => hsub p (List.mem_cons_of_mem _ hp))
            hq1 htr1 h2 y hy hy1 ed hed

theorem walkF_nodeEdges_complete (db : WDB) (props : List String) :
    ∀ (n : Nat) (q : String) (v : List String) (e : List GraphEdge)
      (tr : List (String × Bool)) (st2 : WSt),
      walkF db props n q v e tr = some (.ok st2) →
      ∀ y, y ∈ st2.1 → y ∉ v → ∀ ed ∈ nodeEdges db props y, ed ∈ st2.2.1 := by
  intro n
  induction n with
  | zero =>
    intro q v e tr st2 h
    exact Option.noConfusion h
  | succ n ih =>
    intro q v e tr st2 h y hy hyv ed hed
    obtain ⟨v2, e2, tr2⟩ := st2
    rw [walkF] at h
    by_cases hv : q ∈ v
    · rw [if_pos hv] at h
      simp only [Option.some.injEq, Except.ok.injEq, Prod.mk.injEq] at h
      obtain ⟨rfl, rfl, rfl⟩ := h
      exact absurd hy hyv
    · rw [if_neg hv] at h
      split at h
      · rename_i hf
        simp only [Option.some.injEq, Except.ok.injEq, Prod.mk.injEq] at h
        obtain ⟨rfl, rfl, rfl⟩ := h
        rcases List.mem_cons.mp hy with rfl | hy2
        · obtain ⟨p, _, s, hs, _⟩ := (nodeEdges_mem db props y ed).mp hed
          rw [nodeVals_none db p y hf] at hs
          exact absurd hs (List.not_mem_nil s)
        · exact absurd hy2 hyv
      · rename_i ent hf
        split at h
        · rename_i htru
          split at h
          · exact Except.noConfusion (Option.some.inj h)
          · rename_i pm hp
            have h2 : walkProps (fun q2 vv ee tt => walkF db props n q2 vv ee tt)
                q pm props (q :: v) e (tr ++ [(q, true)]) =
                some (.ok (v2, e2, tr2)) := h
            have hnext : NextOk props
                (fun q2 vv ee tt => walkF db props n q2 vv ee tt) :=
              fun q2 vv ee tt st hcall => walkF_stepOk db props n q2 vv ee tt st hcall
            have hedge : ∀ q2 vv ee tt st,
                (fun q3 v3 e3 t3 => walkF db props n q3 v3 e3 t3) q2 vv ee tt =
                  some (.ok st) →
                ∀ y2, y2 ∈ st.1 → y2 ∉ vv →
                  ∀ ed2 ∈ nodeEdges db props y2, ed2 ∈ st.2.1 :=
              fun q2 vv ee tt st hcall => ih q2 vv ee tt st hcall
            by_cases hyq : y = q
            · subst hyq
              obtain ⟨pname, hpn, s, hs, rfl⟩ := (nodeEdges_mem db props y ed).mp hed
              cases hpv : pmVals pm pname with
              | error ex =>
                rw [nodeVals_run_error db pname y ent pm ex hf htru hp hpv] at hs
                exact absurd hs (List.not_mem_nil s)
              | ok vals =>
                rw [nodeVals_run db pname y ent pm vals hf htru hp hpv] at hs
                exact walkProps_edge_emitted db props _ hnext y pm props
                  (y :: v) e (tr ++ [(y, true)]) (v2, e2, tr2) (fun p hp2 => hp2)
                  (List.mem_cons_self _ _)
                  (List.mem_append_right _ (List.mem_singleton.mpr rfl)) h2
                  pname hpn vals hpv s hs
            · have hy2 : y ∉ q :: v := by
                intro hmem
                rcases List.mem_cons.mp hmem with h3 | h3
                · exact hyq h3
                · exact hyv h3
              exact walkProps_edges_closed db props _ hnext hedge q pm props
                (q :: v) e (tr ++ [(q, true)]) (v2, e2, tr2) (fun p hp2 => hp2)
                (List.mem_cons_self _ _)
                (List.mem_append_right _ (List.mem_singleton.mpr rfl)) h2
                y hy hy2 ed hed
        · rename_i htru
          simp only [Option.some.injEq, Except.ok.injEq, Prod.mk.injEq] at h
          obtain ⟨rfl, rfl, rfl⟩ := h
          rcases List.mem_cons.mp hy with rfl | hy2
          · obtain ⟨p, _, s, hs, _⟩ := (nodeEdges_mem db props y ed).mp hed
            have htru2 : pyTruthy ent = false := by simpa using htru
            rw [nodeVals_falsy db p y ent hf htru2] at hs
            exact absurd hs (List.not_mem_nil s)
          · exact absurd hy2 hyv

theorem walkChildren_edges_sound (db : WDB) (rels : List String)
    (next : String → List String → List GraphEdge → List (String × Bool) →
      Option (PyM WSt)) (hnext : NextOk rels next)
    (hsound : ∀ q2 v2 e2 tr2 st2, next q2 v2 e2 tr2 = some (.ok st2) →
      ∀ ed ∈ st2.2.1, ed ∈ e2 ∨ (ed.«from» ∉ v2 ∧ ed.«from» ∈ st2.1 ∧
        ed ∈ nodeEdges db rels ed.«from»))
    (rel qid : String) (hrel : rel ∈ rels) :
    ∀ (vals : List J) (v : List String) (e : List GraphEdge)
      (tr : List (String × Bool)) (st2 : WSt), qid ∈ v → (qid, true) ∈ tr →
      (∀ s ∈ travIds vals, (⟨qid, s, rel⟩ : GraphEdge) ∈ nodeEdges db rels qid) →
      walkChildren next rel qid vals v e tr = some (.ok st2) →
      ∀ ed ∈ st2.2.1, ed ∈ e ∨ ed ∈ nodeEdges db rels qid ∨
        (ed.«from» ∉ v ∧ ed.«from» ∈ st2.1 ∧ ed ∈ nodeEdges db rels ed.«from») := by
  intro vals
  induction vals with
  | nil =>
    intro v e tr st2 _ _ _ h ed hed
    obtain ⟨v2, e2, tr2⟩ := st2
    simp only [walkChildren, Option.some.injEq, Except.ok.injEq, Prod.mk.injEq] at h
    obtain ⟨rfl, rfl, rfl⟩ := h
    exact Or.inl hed
  | cons val rest ih =>
    intro v e tr st2 hq htr hvals h ed hed
    cases val with
    | str s0 =>
      by_cases hc : (pyTruthy (.str s0) && pyStartsWith s0 "Q") = true
      · rw [walkChildren, if_pos hc] at h
        have hvals2 : ∀ s ∈ travIds rest,
            (⟨qid, s, rel⟩ : GraphEdge) ∈ nodeEdges db rels qid := by
          intro s hs
          refine hvals s ?_
          rw [travIds_cons_valid s0 rest hc]
          exact List.mem_cons_of_mem _ hs
        have hvhead : (⟨qid, s0, rel⟩ : GraphEdge) ∈ nodeEdges db rels qid := by
          refine hvals s0 ?_
          rw [travIds_cons_valid s0 rest hc]
          exact List.mem_cons_self _ _
        cases hn : next s0 v (e ++ [⟨qid, s0, rel⟩]) tr with
        | none =>
          rw [hn] at h
          exact Option.noConfusion h
        | some r =>
          cases r with
          | error ex =>
            rw [hn] at h
            exact Except.noConfusion (Option.some.inj h)
          | ok st1 =>
            obtain ⟨v1, e1, tr1⟩ := st1
            rw [hn] at h
            have h2 : walkChildren next rel qid rest v1 e1 tr1 = some (.ok st2) := h
            have s1 : StepOk rels (v, e ++ [⟨qid, s0, rel⟩], tr) (v1, e1, tr1) :=
              hnext s0 v (e ++ [⟨qid, s0, rel⟩]) tr (v1, e1, tr1) hn
            have hq1 : qid ∈ v1 := s1.1 hq
            have htr1 : (qid, true) ∈ tr1 := by
              obtain ⟨d, hd, _, _⟩ := s1.2.1
              have hd2 : tr1 = tr ++ d := hd
              rw [hd2]
              exact List.mem_append_left _ htr
            have s2 : StepOk rels (v1, e1, tr1) st2 :=
              walkChildren_stepOk rels next hnext rel qid hrel rest
                v1 e1 tr1 st2 hq1 htr1 h2
            rcases ih v1 e1 tr1 st2 hq1 htr1 hvals2 h2 ed hed with
              hin1 | hnq | ⟨hnv1, hin2, hne⟩
            · rcases hsound s0 v (e ++ [⟨qid, s0, rel⟩]) tr (v1, e1, tr1) hn
                  ed hin1 with hin0 | ⟨hnv0, hin0, hne0⟩
              · rcases List.mem_append.mp hin0 with hine | hinx
                · exact Or.inl hine
                · rw [List.mem_singleton] at hinx
                  subst hinx
                  exact Or.inr (Or.inl hvhead)
              · exact Or.inr (Or.inr ⟨hnv0, s2.1 hin0, hne0⟩)
            · exact Or.inr (Or.inl hnq)
            · refine Or.inr (Or.inr ⟨fun hmem => hnv1 (s1.1 hmem), hin2, hne⟩)
      · rw [walkChildren, if_neg hc] at h
        have hc2 : (pyTruthy (.str s0) && pyStartsWith s0 "Q") = false := by
          simpa using hc
        refine ih v e tr st2 hq htr ?_ h ed hed
        intro s hs
        refine hvals s ?_
        rw [travIds_cons_invalid_str s0 rest hc2]
        exact hs
    | null => exact ih v e tr st2 hq htr hvals h ed hed
    | bool b => exact ih v e tr st2 hq htr hvals h ed hed
    | num m => exact ih v e tr st2 hq htr hvals h ed hed
    | arr xs => exact ih v e tr st2 hq htr hvals h ed hed
    | obj fs => exact ih v e tr st2 hq htr hvals h ed hed

theorem walkProps_edges_sound (db : WDB) (rels : List String)
    (next : String → List String → List GraphEdge → List (String × Bool) →
      Option (PyM WSt)) (hnext : NextOk rels next)
    (hsound : ∀ q2 v2 e2 tr2 st2, next q2 v2 e2 tr2 = some (.ok st2) →
      ∀ ed ∈ st2.2.1, ed ∈ e2 ∨ (ed.«from» ∉ v2 ∧ ed.«from» ∈ st2.1 ∧
        ed ∈ nodeEdges db rels ed.«from»))
    (qid : String) (pm : J) :
    ∀ (props2 : List String) (v : List String) (e : List GraphEdge)
      (tr : List (String × Bool)) (st2 : WSt), (∀ p ∈ props2, p ∈ rels) →
      qid ∈ v → (qid, true) ∈ tr →
      (∀ pname ∈ props2, ∀ vals, pmVals pm pname = .ok vals →
        ∀ s ∈ travIds vals, (⟨qid, s, pname⟩ : GraphEdge) ∈ nodeEdges db rels qid) →
      walkProps next qid pm props2 v e tr = some (.ok st2) →
      ∀ ed ∈ st2.2.1, ed ∈ e ∨ ed ∈ nodeEdges db rels qid ∨
        (ed.«from» ∉ v ∧ ed.«from» ∈ st2.1 ∧ ed ∈ nodeEdges db rels ed.«from») := by
  intro props2
  induction props2 with
  | nil =>
    intro v e tr st2 _ _ _ _ h ed hed
    obtain ⟨v2, e2, tr2⟩ := st2
    simp only [walkProps, Option.some.injEq, Except.ok.injEq, Prod.mk.injEq] at h
    obtain ⟨rfl, rfl, rfl⟩ := h
    exact Or.inl hed
  | cons pname0 rest ih =>
    intro v e tr st2 hsub hq htr hvals h ed hed
    rw [walkProps] at h
    split at h
    · exact Except.noConfusion (Option.some.inj h)
    · rename_i vals0 hpv0
      split at h
      · exact Option.noConfusion h
      · exact Except.noConfusion (Option.some.inj h)
      · rename_i v1 e1 tr1 hwc
        have h2 : walkProps next qid pm rest v1 e1 tr1 = some (.ok st2) := h
        have s1 : StepOk rels (v, e, tr) (v1, e1, tr1) :=
          walkChildren_stepOk rels next hnext pname0 qid
            (hsub pname0 (List.mem_cons_self _ _)) vals0 v e tr (v1, e1, tr1)
            hq htr hwc
        have hq1 : qid ∈ v1 := s1.1 hq
        have htr1 : (qid, true) ∈ tr1 := by
          obtain ⟨d, hd, _, _⟩ := s1.2.1
          have hd2 : tr1 = tr ++ d := hd
          rw [hd2]
          exact List.mem_append_left _ htr
        have s2 : StepOk rels (v1, e1, tr1) st2 :=
          walkProps_stepOk rels next hnext qid pm rest v1 e1 tr1 st2
            (fun p hp => hsub p (List.mem_cons_of_mem _ hp)) hq1 htr1 h2
        rcases ih v1 e1 tr1 st2 (fun p hp => hsub p (List.mem_cons_of_mem _ hp))
            hq1 htr1
            (fun p hp vals hpv s hs =>
              hvals p (List.mem_cons_of_mem _ hp) vals hpv s hs) h2 ed hed with
          hin1 | hnq | ⟨hnv1, hin2, hne⟩
        · rcases walkChildren_edges_sound db rels next hnext hsound pname0 qid
              (hsub pname0 (List.mem_cons_self _ _)) vals0 v e tr (v1, e1, tr1)
              hq htr
              (fun s hs => hvals pname0 (List.mem_cons_self _ _) vals0 hpv0 s hs)
              hwc ed hin1 with hine | hnq0 | ⟨hnv0, hin0, hne0⟩
          · exact Or.inl hine
          · exact Or.inr (Or.inl hnq0)
          · exact Or.inr (Or.inr ⟨hnv0, s2.1 hin0, hne0⟩)
        · exact Or.inr (Or.inl hnq)
        · exact Or.inr (Or.inr ⟨fun hmem => hnv1 (s1.1 hmem), hin2, hne⟩)

theorem walkF_edges_sound (db : WDB) (props : List String) :
    ∀ (n : Nat) (q : String) (v : List String) (e : List GraphEdge)
      (tr : List (String × Bool)) (st2 : WSt),
      walkF db props n q v e tr = some (.ok st2) →
      ∀ ed ∈ st2.2.1, ed ∈ e ∨
        (ed.«from» ∉ v ∧ ed.«from» ∈ st2.1 ∧ ed ∈ nodeEdges db props ed.«from») := by
  intro n
  induction n with
  | zero =>
    intro q v e tr st2 h
    exact Option.noConfusion h
  | succ n ih =>
    intro q v e tr st2 h ed hed
    obtain ⟨v2, e2, tr2⟩ := st2
    rw [walkF] at h
    by_cases hv : q ∈ v
    · rw [if_pos hv] at h
      simp only [Option.some.injEq, Except.ok.injEq, Prod.mk.injEq] at h
      obtain ⟨rfl, rfl, rfl⟩ := h
      exact Or.inl hed
    · rw [if_neg hv] at h
      split at h
      · simp only [Option.some.injEq, Except.ok.injEq, Prod.mk.injEq] at h
        obtain ⟨rfl, rfl, rfl⟩ := h
        exact Or.inl hed
      · rename_i ent hf
        split at h
        · rename_i htru
          split at h
          · exact Except.noConfusion (Option.some.inj h)
          · rename_i pm hp
            have h2 : walkProps (fun q2 vv ee tt => walkF db props n q2 vv ee tt)
                q pm props (q :: v) e (tr ++ [(q, true)]) =
                some (.ok (v2, e2, tr2)) := h
            have hnext : NextOk props
                (fun q2 vv ee tt => walkF db props n q2 vv ee tt) :=
              fun q2 vv ee tt st hcall => walkF_stepOk db props n q2 vv ee tt st hcall
            have hsound : ∀ q2 vv ee tt st,
                (fun q3 v3 e3 t3 => walkF db props n q3 v3 e3 t3) q2 vv ee tt =
                  some (.ok st) →
                ∀ ed2 ∈ st.2.1, ed2 ∈ ee ∨ (ed2.«from» ∉ vv ∧ ed2.«from» ∈ st.1 ∧
                  ed2 ∈ nodeEdges db props ed2.«from») :=
              fun q2 vv ee tt st hcall => ih q2 vv ee tt st hcall
            have hvals : ∀ pname ∈ props, ∀ vals, pmVals pm pname = .ok vals →
                ∀ s ∈ travIds vals,
                  (⟨q, s, pname⟩ : GraphEdge) ∈ nodeEdges db props q := by
              intro pname hpn vals hpv s hs
              refine (nodeEdges_mem db props q _).mpr ⟨pname, hpn, s, ?_, rfl⟩
              rw [nodeVals_run db pname q ent pm vals hf htru hp hpv]
              exact hs
            have s1 : StepOk props (q :: v, e, tr ++ [(q, true)]) (v2, e2, tr2) :=
              walkProps_stepOk props _ hnext q pm props (q :: v) e
                (tr ++ [(q, true)]) (v2, e2, tr2) (fun p hp2 => hp2)
                (List.mem_cons_self _ _)
                (List.mem_append_right _ (List.mem_singleton.mpr rfl)) h2
            rcases walkProps_edges_sound db props _ hnext hsound q pm props
                (q :: v) e (tr ++ [(q, true)]) (v2, e2, tr2) (fun p hp2 => hp2)
                (List.mem_cons_self _ _)
                (List.mem_append_right _ (List.mem_singleton.mpr rfl)) hvals h2
                ed hed with hine | hnq | ⟨hnv1, hin2, hne⟩
            · exact Or.inl hine
            · have hfrom : ed.«from» = q := nodeEdges_from db props q ed hnq
              refine Or.inr ⟨?_, ?_, ?_⟩
              · rw [hfrom]
                exact hv
              · rw [hfrom]
                exact s1.1 (List.mem_cons_self _ _)
              · rw [hfrom]
                exact hnq
            · refine Or.inr ⟨fun hmem => hnv1 (List.mem_cons_of_mem _ hmem),
                hin2, hne⟩
        · simp only [Option.some.injEq, Except.ok.injEq, Prod.mk.injEq] at h
          obtain ⟨rfl, rfl, rfl⟩ := h
          exact Or.inl hed

theorem walkF_visited_iff (db : WDB) (props : List String) (n : Nat)
    (qid : String) (st : WSt)
    (h : walkF db props n qid [] [] [] = some (.ok st)) :
    ∀ x, x ∈ st.1 ↔ ReachAvoid db props [] qid x := by
  intro x
  constructor
  · intro hx
    rcases walkF_reach db props n qid [] [] [] st h x hx with h0 | hr
    · exact absurd h0 (List.not_mem_nil x)
    · exact hr
  · intro hr
    exact walkF_reach_complete db props n qid [] [] [] st h x hr

theorem walkF_edges_iff (db : WDB) (props : List String) (n : Nat)
    (qid : String) (st : WSt)
    (h : walkF db props n qid [] [] [] = some (.ok st)) :
    ∀ ed, ed ∈ st.2.1 ↔ ed.«from» ∈ st.1 ∧ ed ∈ nodeEdges db props ed.«from» := by
  intro ed
  constructor
  · intro hed
    rcases walkF_edges_sound db props n qid [] [] [] st h ed hed
      with h0 | ⟨_, hin, hne⟩
    · exact absurd h0 (List.not_mem_nil ed)
    · exact ⟨hin, hne⟩
  · intro ⟨hin, hne⟩
    exact walkF_nodeEdges_complete db props n qid [] [] [] st h ed.«from» hin
      (List.not_mem_nil _) ed hne

/-- C7: the walk emits edges in depth-first order — on the concrete
database, the edge into Q2's subtree (Q2 to Q4) is emitted before Q1's
next edition edge (Q1 to Q3), and all edition edges of Q1 come before
its derivative-work edge; the variant that processes the two
relationship loops in the opposite order emits a different edge ORDER
but — in general, for every database and start — exactly the same edge
SET. -/
theorem claim_C7_depth_first_order_and_edge_set :
    walk demoDb "Q1" =
      some (.ok (["Q5", "Q3", "Q4", "Q2", "Q1"],
        [⟨"Q1", "Q2", "has_edition"⟩, ⟨"Q2", "Q4", "has_edition"⟩,
         ⟨"Q1", "Q3", "has_edition"⟩, ⟨"Q1", "Q5", "derivative_work"⟩],
        [("Q1", true), ("Q2", true), ("Q4", true), ("Q3", true),
         ("Q5", true)])) ∧
    walkAlt demoDb "Q1" =
      some (.ok (["Q3", "Q4", "Q2", "Q5", "Q1"],
        [⟨"Q1", "Q5", "derivative_work"⟩, ⟨"Q1", "Q2", "has_edition"⟩,
         ⟨"Q2", "Q4", "has_edition"⟩, ⟨"Q1", "Q3", "has_edition"⟩],
        [("Q1", true), ("Q5", true), ("Q2", true), ("Q4", true),
         ("Q3", true)])) ∧
    (∀ (db : WDB) (qid : String) (st1 st2 : WSt),
      walk db qid = some (.ok st1) → walkAlt db qid = some (.ok st2) →
      ∀ ed, ed ∈ st1.2.1 ↔ ed ∈ st2.2.1) := by
  refine ⟨rfl, rfl, ?_⟩
  intro db qid st1 st2 h1 h2 ed
  have hv1 := walkF_visited_iff db walkRels (db.length + 1) qid st1 h1
  have hv2 := walkF_visited_iff db ["derivative_work", "has_edition"]
    (db.length + 1) qid st2 h2
  have he1 := walkF_edges_iff db walkRels (db.length + 1) qid st1 h1
  have he2 := walkF_edges_iff db ["derivative_work", "has_edition"]
    (db.length + 1) qid st2 h2
  have hsucc : ∀ y s, s ∈ succIds db walkRels y ↔
      s ∈ succIds db ["derivative_work", "has_edition"] y :=
    fun y s => succIds_swap_mem db "has_edition" "derivative_work" y s
  rw [he1 ed, he2 ed]
  constructor
  · intro ⟨hin, hne⟩
    refine ⟨?_, ?_⟩
    · rw [hv2]
      exact reachAvoid_congr hsucc ((hv1 _).mp hin)
    · exact (nodeEdges_swap_mem db "has_edition" "derivative_work"
        ed.«from» ed).mp hne
  · intro ⟨hin, hne⟩
    refine ⟨?_, ?_⟩
    · rw [hv1]
      exact reachAvoid_congr (fun y s => (hsucc y s).symm) ((hv2 _).mp hin)
    · exact (nodeEdges_swap_mem db "has_edition" "derivative_work"
        ed.«from» ed).mpr hne

theorem claim_C7_depth_first_order_and_edge_set_witness :
    (walk demoDb "Q1" =
      some (.ok (["Q5", "Q3", "Q4", "Q2", "Q1"],
        [⟨"Q1", "Q2", "has_edition"⟩, ⟨"Q2", "Q4", "has_edition"⟩,
         ⟨"Q1", "Q3", "has_edition"⟩, ⟨"Q1", "Q5", "derivative_work"⟩],
        [("Q1", true), ("Q2", true), ("Q4", true), ("Q3", true),
         ("Q5", true)])) ∧
     walkAlt demoDb "Q1" =
      some (.ok (["Q3", "Q4", "Q2", "Q5", "Q1"],
        [⟨"Q1", "Q5", "derivative_work"⟩, ⟨"Q1", "Q2", "has_edition"⟩,
         ⟨"Q2", "Q4", "has_edition"⟩, ⟨"Q1", "Q3", "has_edition"⟩],
        [("Q1", true), ("Q5", true), ("Q2", true), ("Q4", true),
         ("Q3", true)]))) ∧
    (∀ ed, ed ∈ [(⟨"Q1", "Q2", "has_edition"⟩ : GraphEdge),
         ⟨"Q2", "Q4", "has_edition"⟩, ⟨"Q1", "Q3", "has_edition"⟩,
         ⟨"Q1", "Q5", "derivative_work"⟩] ↔
       ed ∈ [(⟨"Q1", "Q5", "derivative_work"⟩ : GraphEdge),
         ⟨"Q1", "Q2", "has_edition"⟩, ⟨"Q2", "Q4", "has_edition"⟩,
         ⟨"Q1", "Q3", "has_edition"⟩]) :=
  ⟨⟨rfl, rfl⟩,
   fun ed => claim_C7_depth_first_order_and_edge_set.2.2 demoDb "Q1"
     (["Q5", "Q3", "Q4", "Q2", "Q1"],
      [⟨"Q1", "Q2", "has_edition"⟩, ⟨"Q2", "Q4", "has_edition"⟩,
       ⟨"Q1", "Q3", "has_edition"⟩, ⟨"Q1", "Q5", "derivative_work"⟩],
      [("Q1", true), ("Q2", true), ("Q4", true), ("Q3", true), ("Q5", true)])
     (["Q3", "Q4", "Q2", "Q5", "Q1"],
      [⟨"Q1", "Q5", "derivative_work"⟩, ⟨"Q1", "Q2", "has_edition"⟩,
       ⟨"Q2", "Q4", "has_edition"⟩, ⟨"Q1", "Q3", "has_edition"⟩],
      [("Q1", true), ("Q5", true), ("Q2", true), ("Q4", true), ("Q3", true)])
     rfl rfl ed⟩

theorem claim_C4_reference_flattening_witness :
    (List.lookup "P747" [("P747", J.arr [stmtRef "Q5", stmtVal (J.num 7), stmtVal J.null])] =
        some (J.arr [stmtRef "Q5", stmtVal (J.num 7), stmtVal J.null]) ∧
      ∀ s ∈ [stmtRef "Q5", stmtVal (J.num 7), stmtVal J.null], wfStatement s = true) ∧
    (_extract_property_values
        (J.obj [("P747", J.arr [stmtRef "Q5", stmtVal (J.num 7), stmtVal J.null])]) "P747" =
      .ok ([stmtRef "Q5", stmtVal (J.num 7), stmtVal J.null].map extractValuePure) ∧
    ∀ s ∈ [stmtRef "Q5", stmtVal (J.num 7), stmtVal J.null],
      (∀ vfs i, mainValue s = .obj vfs → vfs.lookup "id" = some i →
        extractValuePure s = i) ∧
      (∀ vfs, mainValue s = .obj vfs → vfs.lookup "id" = none →
        extractValuePure s = .obj vfs) ∧
      ((∀ vfs, mainValue s ≠ J.obj vfs) → extractValuePure s = mainValue s)) :=
  ⟨⟨rfl, by decide⟩,
   claim_C4_reference_flattening _ "P747" _ rfl (by decide)⟩

end WikiUtils
